import Mathlib

/-!
# Verification of the Jenkins prow-job controller (prow/jenkins/controller.go)

A shallow embedding of the controller core: the data model (`ProwJob`,
`JenkinsBuild`), the concurrency gate (`canExecuteConcurrently`), the
presubmit deduper (`terminateDupes`), the two state-machine drivers
(`syncPendingJob`, `syncNonPendingJob`), follow-up admission
(`RunAfterSuccessCanRun`) and one full reconciliation tick (`syncTick`).

Modelling conventions:
* Go `time.Time` values are `Nat` instants; `time.Time.Before` is `<` and the
  zero value of a completion time is `none`.
* Go `int` fields that the code compares with `> 0` / `>= x` are `Int`.
* The external collaborators (record store, Jenkins client, GitHub client)
  are oracles: pure functions that say whether each call succeeds.  Every
  externally visible call made during a tick is recorded as an `Op`.
* The worker pool processes each record exactly once; the embedding runs the
  pending phase and then the non-pending phase sequentially in list order,
  which is one admissible schedule of the pool.
-/

/-- The fallback support URL constant `testInfra` from the source. -/
def testInfra : String := "https://github.com/kubernetes/test-infra/issues"

/-- Job states of `kube.ProwJobState`. -/
inductive ProwJobState where
  | triggered
  | pending
  | success
  | failure
  | aborted
  | error
deriving DecidableEq, Repr

/-- Job types of `kube.ProwJobType`. -/
inductive ProwJobType where
  | presubmit
  | postsubmit
  | periodic
  | batch
deriving DecidableEq, Repr

/-- A pull request reference (number and sha). -/
structure Pull where
  number : Nat
  sha : String
deriving DecidableEq, Repr

/-- `kube.Refs`: org, repo and the pull list. -/
structure Refs where
  org : String
  repo : String
  pulls : List Pull
deriving DecidableEq, Repr

/-- `kube.ProwJobSpec`.  `runAfterSuccess` nests further specs, so the type is
a nested inductive; projections are given below. -/
inductive ProwJobSpec where
  | mk (job : String) (agent : String) (jobType : ProwJobType)
      (maxConcurrency : Int) (refs : Refs)
      (runAfterSuccess : List ProwJobSpec)

def ProwJobSpec.job : ProwJobSpec → String
  | .mk j _ _ _ _ _ => j

def ProwJobSpec.agent : ProwJobSpec → String
  | .mk _ a _ _ _ _ => a

def ProwJobSpec.jobType : ProwJobSpec → ProwJobType
  | .mk _ _ t _ _ _ => t

def ProwJobSpec.maxConcurrency : ProwJobSpec → Int
  | .mk _ _ _ m _ _ => m

def ProwJobSpec.refs : ProwJobSpec → Refs
  | .mk _ _ _ _ r _ => r

def ProwJobSpec.runAfterSuccess : ProwJobSpec → List ProwJobSpec
  | .mk _ _ _ _ _ ras => ras

/-- `kube.ProwJobStatus`.  `startTime` and `completionTime` are instants;
`completionTime = none` is the Go zero time. -/
structure ProwJobStatus where
  state : ProwJobState
  startTime : Nat
  completionTime : Option Nat
  description : String
  url : String
  podName : String
  buildID : String
deriving DecidableEq, Repr

/-- Object metadata: the stable record name and its labels. -/
structure ObjectMeta where
  name : String
  labels : List (String × String)
deriving DecidableEq, Repr

/-- `kube.ProwJob`: metadata, immutable spec, mutable status. -/
structure ProwJob where
  metadata : ObjectMeta
  spec : ProwJobSpec
  status : ProwJobStatus

/-- Modelled from the spec: `kube.ProwJob.Complete` (the kube package is not
part of the provided source).  "Once completion_time is set, the record is
complete". -/
def ProwJob.Complete (pj : ProwJob) : Bool :=
  pj.status.completionTime.isSome

/-- The agent string this controller handles (`kube.JenkinsAgent`). -/
def jenkinsAgent : String := "jenkins"

/-- The controller's view of a Jenkins build: the five predicates and the
build number.  The `JenkinsBuild` type itself lives in the Jenkins client,
outside the provided source; the controller only evaluates these predicates
and reads `Number`. -/
structure JenkinsBuild where
  number : Nat
  isEnqueued : Bool
  isRunning : Bool
  isSuccess : Bool
  isFailure : Bool
  isAborted : Bool
deriving DecidableEq, Repr

/-- The `map[string]JenkinsBuild` of build snapshots keyed by record name. -/
abbrev BuildMap := List (String × JenkinsBuild)

/-- Map lookup, first match wins. -/
def lookupBuild (jbs : BuildMap) (name : String) : Option JenkinsBuild :=
  match jbs with
  | [] => none
  | (k, b) :: rest => if k = name then some b else lookupBuild rest name

/-- The in-memory `pendingJobs map[string]int` counter. -/
abbrev CountMap := List (String × Nat)

/-- `pendingJobs[job]` (a missing key reads as 0, as in Go). -/
def lookupCount (m : CountMap) (job : String) : Nat :=
  match m with
  | [] => 0
  | (k, v) :: rest => if k = job then v else lookupCount rest job

/-- `pendingJobs[job]++`. -/
def incrCount (m : CountMap) (job : String) : CountMap :=
  match m with
  | [] => [(job, 1)]
  | (k, v) :: rest =>
      if k = job then (k, v + 1) :: rest else (k, v) :: incrCount rest job

/-- The sum of all `pendingJobs` counts (`running` in the source). -/
def sumCounts (m : CountMap) : Nat :=
  (m.map Prod.snd).sum

/-- Per-job presubmit definition from config: the `run_if_changed` regex and
its compiled predicate over changed file names. -/
structure Presubmit where
  runIfChanged : String
  runsAgainstChanges : List String → Bool

/-- The configuration snapshot read during a tick (`JenkinsOperator` options
plus presubmit lookup and the URL template as a pure function). -/
structure Config where
  maxConcurrency : Int
  maxGoroutines : Nat
  allowCancellations : Bool
  jobURLTemplate : ProwJob → String
  getPresubmit : String → String → Option Presubmit

/-- `canExecuteConcurrently` from the source: returns the admission verdict
together with the updated `pendingJobs` counter (the check-and-increment
happens under one lock acquisition). -/
def canExecuteConcurrently (cfg : Config) (pendingJobs : CountMap)
    (pj : ProwJob) : Bool × CountMap :=
  if cfg.maxConcurrency > 0 ∧
      (sumCounts pendingJobs : Int) ≥ cfg.maxConcurrency then
    (false, pendingJobs)
  else if pj.spec.maxConcurrency = 0 then
    (true, incrCount pendingJobs pj.spec.job)
  else if (lookupCount pendingJobs pj.spec.job : Int) ≥
      pj.spec.maxConcurrency then
    (false, pendingJobs)
  else
    (true, incrCount pendingJobs pj.spec.job)

/-- `incrementNumPendingJobs` from the source (lock elided; the embedding is
sequential). -/
def incrementNumPendingJobs (pendingJobs : CountMap) (job : String) : CountMap :=
  incrCount pendingJobs job

/-- An externally visible call made during a tick.  `ok` records whether the
oracle let the call succeed. -/
inductive Op where
  | replace (name : String) (pj : ProwJob) (ok : Bool)
  | create (spec : ProwJobSpec) (labels : List (String × String)) (ok : Bool)
  | submit (name : String) (ok : Bool)
  | abort (job : String) (buildNumber : Nat)

/-- Errors a sync function can return. -/
inductive Err where
  | replaceFailed (name : String)
  | createFailed (job : String)
deriving DecidableEq, Repr

/-- Store oracle: which `ReplaceProwJob` / `CreateProwJob` calls succeed.  A
successful Replace echoes the record it was given. -/
structure KubeOracle where
  replaceOk : String → Bool
  createOk : ProwJobSpec → Bool

/-- Jenkins oracle: which `Build` (submit) calls succeed.  `Abort` errors are
only logged by the controller, so they are not modelled. -/
structure JenkinsOracle where
  buildOk : String → Bool

/-- A changed file in a pull request (`github.PullRequestChange`); the
controller only reads the filename. -/
structure PullRequestChange where
  filename : String
deriving DecidableEq, Repr

/-- GitHub oracle: result of `GetPullRequestChanges`. -/
structure GithubOracle where
  getPullRequestChanges : String → String → Nat → Except Unit (List PullRequestChange)

/-- The `Pulls[0]` access as the partial operation it is in Go: `none` when
the pull list is empty (where the Go code would panic). -/
def firstPullNumber? (pj : ProwJob) : Option Nat :=
  pj.spec.refs.pulls.head?.map Pull.number

/-- Totalised first pull used by the executable model (pull number 0 when the
list is empty; `firstPullNumber?` tracks the partiality). -/
def defaultPull : Pull := { number := 0, sha := "" }

def firstPull (pj : ProwJob) : Pull :=
  pj.spec.refs.pulls.headD defaultPull

/-- The dedupe key `"job org/repo#number"` of `terminateDupes`. -/
def dedupeKey (pj : ProwJob) : String :=
  pj.spec.job ++ " " ++ pj.spec.refs.org ++ "/" ++ pj.spec.refs.repo ++ "#" ++
    toString (firstPull pj).number

/-- The dedupe key as the partial computation it is in Go: `none` when the
record has no pulls. -/
def dedupeKey? (pj : ProwJob) : Option String :=
  (firstPullNumber? pj).map fun n =>
    pj.spec.job ++ " " ++ pj.spec.refs.org ++ "/" ++ pj.spec.refs.repo ++ "#" ++
      toString n

/-- Records the deduper considers: not complete and of presubmit type. -/
def dedupeEligible (pj : ProwJob) : Bool :=
  ¬ pj.Complete ∧ pj.spec.jobType = .presubmit

/-- The status mutation the deduper applies to a superseded record. -/
def markAborted (now : Nat) (pj : ProwJob) : ProwJob :=
  { pj with status :=
      { pj.status with completionTime := some now, state := .aborted } }

/-- The `dupes` map of `terminateDupes`: key to index of the newest record. -/
abbrev IdxMap := List (String × Nat)

def lookupIdx (m : IdxMap) (k : String) : Option Nat :=
  match m with
  | [] => none
  | (k', i) :: rest => if k' = k then some i else lookupIdx rest k

def setIdx (m : IdxMap) (k : String) (i : Nat) : IdxMap :=
  match m with
  | [] => [(k, i)]
  | (k', j) :: rest =>
      if k' = k then (k', i) :: rest else (k', j) :: setIdx rest k i

/-- Start time of the record at an index of the current slice (reads of
`pjs[prev]` in the source; an out-of-range index reads 0, which the
invariants below rule out). -/
def startTimeAt (pjs : List ProwJob) (i : Nat) : Nat :=
  match pjs.get? i with
  | some pj => pj.status.startTime
  | none => 0

/-- The "avoid cancelling enqueued builds" condition of `terminateDupes`:
cancellations are allowed and the cancel target's build exists and is
enqueued. -/
def dedupeSkip (cfg : Config) (jbs : BuildMap) (toCancel : ProwJob) : Bool :=
  cfg.allowCancellations &&
    ((lookupBuild jbs toCancel.metadata.name).map
      JenkinsBuild.isEnqueued).getD false

/-- The backend Abort call of `terminateDupes`: made only when cancellations
are allowed and the cancel target has a build. -/
def dedupeAbortOps (cfg : Config) (jbs : BuildMap) (toCancel : ProwJob) :
    List Op :=
  if cfg.allowCancellations then
    match lookupBuild jbs toCancel.metadata.name with
    | some b => [Op.abort toCancel.spec.job b.number]
    | none => []
  else []

/-- The loop body of `terminateDupes`, indexed by remaining fuel and the
current position.  Returns the (in-place mutated) slice, the calls made, and
the error that aborted the pass, if any. -/
def terminateDupesGo (cfg : Config) (kc : KubeOracle) (jbs : BuildMap)
    (now : Nat) :
    Nat → Nat → IdxMap → List ProwJob → List ProwJob × List Op × Option Err
  | 0, _, _, pjs => (pjs, [], none)
  | fuel + 1, i, dupes, pjs =>
    match pjs.get? i with
    | none => (pjs, [], none)
    | some pj =>
      if ¬ dedupeEligible pj then
        terminateDupesGo cfg kc jbs now fuel (i + 1) dupes pjs
      else
        let n := dedupeKey pj
        match lookupIdx dupes n with
        | none =>
            terminateDupesGo cfg kc jbs now fuel (i + 1) (setIdx dupes n i) pjs
        | some prev =>
            let newer := startTimeAt pjs prev < pj.status.startTime
            let cancelIndex := if newer then prev else i
            let dupes' := if newer then setIdx dupes n i else dupes
            let toCancel := (pjs.get? cancelIndex).getD pj
            if dedupeSkip cfg jbs toCancel then
              -- Avoid cancelling enqueued builds.
              terminateDupesGo cfg kc jbs now fuel (i + 1) dupes' pjs
            else
              let abortOps : List Op := dedupeAbortOps cfg jbs toCancel
              let toCancel' := markAborted now toCancel
              if kc.replaceOk toCancel.metadata.name then
                let rest := terminateDupesGo cfg kc jbs now fuel (i + 1)
                  dupes' (pjs.set cancelIndex toCancel')
                (rest.1,
                 abortOps ++
                   Op.replace toCancel.metadata.name toCancel' true :: rest.2.1,
                 rest.2.2)
              else
                (pjs,
                 abortOps ++ [Op.replace toCancel.metadata.name toCancel' false],
                 some (.replaceFailed toCancel.metadata.name))

/-- `terminateDupes` from the source. -/
def terminateDupes (cfg : Config) (kc : KubeOracle) (jbs : BuildMap)
    (now : Nat) (pjs : List ProwJob) : List ProwJob × List Op × Option Err :=
  terminateDupesGo cfg kc jbs now pjs.length 0 [] pjs

/-- Modelled from the spec: `pjutil.NewProwJob` — the controller-created
follow-up child record, built from a follow-up spec and the parent's labels,
starting in the triggered state. -/
def NewProwJob (spec : ProwJobSpec) (labels : List (String × String)) : ProwJob :=
  { metadata := { name := "", labels := labels }
    spec := spec
    status := { state := .triggered, startTime := 0, completionTime := none,
                description := "", url := "", podName := "", buildID := "" } }

/-- `RunAfterSuccessCanRun` from the source: whether a follow-up child may be
created once its parent succeeded. -/
def RunAfterSuccessCanRun (cfg : Config) (gh : GithubOracle)
    (parent child : ProwJob) : Bool :=
  if parent.spec.jobType ≠ .presubmit then true
  else
    let org := parent.spec.refs.org
    let repo := parent.spec.refs.repo
    let prNum := (firstPull parent).number
    match cfg.getPresubmit (org ++ "/" ++ repo) child.spec.job with
    | none => true
    | some ps =>
      if ps.runIfChanged = "" then true
      else
        match gh.getPullRequestChanges org repo prNum with
        | .error _ => true
        | .ok changesFull =>
            ps.runsAgainstChanges (changesFull.map PullRequestChange.filename)

/-- The `run_after_success` loop of the pending driver's success branch:
creates admissible children in order, stopping at the first failed create. -/
def createChildren (cfg : Config) (kc : KubeOracle) (gh : GithubOracle)
    (parent : ProwJob) : List ProwJobSpec → List Op × Option Err
  | [] => ([], none)
  | nj :: rest =>
    let child := NewProwJob nj parent.metadata.labels
    if ¬ RunAfterSuccessCanRun cfg gh parent child then
      createChildren cfg kc gh parent rest
    else if kc.createOk nj then
      let r := createChildren cfg kc gh parent rest
      (Op.create nj parent.metadata.labels true :: r.1, r.2)
    else
      ([Op.create nj parent.metadata.labels false], some (.createFailed nj.job))

/-- The outcome of one driver invocation on one record: the updated
`pendingJobs` counter, the reports emitted, the calls made, the error (if
any), and the record's end-of-tick store version (`final`: the replaced
value when the Replace succeeded, the untouched store version otherwise). -/
structure SyncStep where
  pendingJobs : CountMap
  reports : List ProwJob
  ops : List Op
  err : Option Err
  final : ProwJob

/-- The shared tail of both drivers: emit the updated record to the report
channel, then persist it via Replace, propagating a Replace failure. -/
def reportAndReplace (kc : KubeOracle) (pendingJobs : CountMap)
    (opsBefore : List Op) (orig pj' : ProwJob) : SyncStep :=
  let ok := kc.replaceOk pj'.metadata.name
  { pendingJobs := pendingJobs
    reports := [pj']
    ops := opsBefore ++ [Op.replace pj'.metadata.name pj' ok]
    err := if ok then none else some (.replaceFailed pj'.metadata.name)
    final := if ok then pj' else orig }

/-- The status-URL construction at the end of the pending driver's `else`
block: set `pod_name` and `build_id` from the build, then resolve the URL
template against the updated record. -/
def resolveURL (cfg : Config) (jb : JenkinsBuild) (pj : ProwJob) : ProwJob :=
  let pj1 := { pj with status := { pj.status with
      podName := pj.spec.job ++ "-" ++ toString jb.number,
      buildID := toString jb.number } }
  { pj1 with status := { pj1.status with
      url := cfg.jobURLTemplate pj1 } }

/-- The tail of the pending driver's `else` block: construct the status URL,
then report and persist. -/
def finishPendingJob (cfg : Config) (kc : KubeOracle) (pendingJobs : CountMap)
    (jb : JenkinsBuild) (opsBefore : List Op) (orig pj : ProwJob) : SyncStep :=
  reportAndReplace kc pendingJobs opsBefore orig (resolveURL cfg jb pj)

/-- The status update of the pending driver when no build snapshot matches
the record's name. -/
def markMissingBuild (now : Nat) (pj : ProwJob) : ProwJob :=
  { pj with status := { pj.status with
      completionTime := some now, state := .error, url := testInfra,
      description := "Error finding Jenkins job." } }

/-- The status update of the pending driver's success branch. -/
def markSucceeded (now : Nat) (pj : ProwJob) : ProwJob :=
  { pj with status := { pj.status with
      completionTime := some now, state := .success,
      description := "Jenkins job succeeded." } }

/-- `syncPendingJob` from the source. -/
def syncPendingJob (cfg : Config) (kc : KubeOracle) (gh : GithubOracle)
    (now : Nat) (jbs : BuildMap) (pj : ProwJob)
    (pendingJobs : CountMap) : SyncStep :=
  match lookupBuild jbs pj.metadata.name with
  | none =>
    reportAndReplace kc pendingJobs [] pj (markMissingBuild now pj)
  | some jb =>
    if jb.isEnqueued then
      -- Still in queue.
      { pendingJobs := incrementNumPendingJobs pendingJobs pj.spec.job
        reports := [], ops := [], err := none, final := pj }
    else if jb.isRunning then
      -- Build still going.
      let pending' := incrementNumPendingJobs pendingJobs pj.spec.job
      if pj.status.description = "Jenkins job running." then
        { pendingJobs := pending'
          reports := [], ops := [], err := none, final := pj }
      else
        finishPendingJob cfg kc pending' jb [] pj
          { pj with status := { pj.status with
              description := "Jenkins job running." } }
    else if jb.isSuccess then
      let created := createChildren cfg kc gh (markSucceeded now pj)
        pj.spec.runAfterSuccess
      match created.2 with
      | some e =>
        { pendingJobs := pendingJobs
          reports := [], ops := created.1, err := some e, final := pj }
      | none =>
        finishPendingJob cfg kc pendingJobs jb created.1 pj
          (markSucceeded now pj)
    else if jb.isFailure then
      finishPendingJob cfg kc pendingJobs jb [] pj
        { pj with status := { pj.status with
            completionTime := some now, state := .failure,
            description := "Jenkins job failed." } }
    else if jb.isAborted then
      finishPendingJob cfg kc pendingJobs jb [] pj
        { pj with status := { pj.status with
            completionTime := some now, state := .aborted,
            description := "Jenkins job aborted." } }
    else
      -- No predicate matched: the switch falls through without a status
      -- change, but the URL construction, report and Replace still run.
      finishPendingJob cfg kc pendingJobs jb [] pj pj

/-- `syncNonPendingJob` from the source. -/
def syncNonPendingJob (cfg : Config) (kc : KubeOracle) (jc : JenkinsOracle)
    (now : Nat) (jbs : BuildMap) (pj : ProwJob)
    (pendingJobs : CountMap) : SyncStep :=
  if pj.Complete then
    { pendingJobs := pendingJobs
      reports := [], ops := [], err := none, final := pj }
  else
    match lookupBuild jbs pj.metadata.name with
    | none =>
      let adm := canExecuteConcurrently cfg pendingJobs pj
      if ¬ adm.1 then
        -- Do not start more jobs than specified.
        { pendingJobs := adm.2
          reports := [], ops := [], err := none, final := pj }
      else
        let subOk := jc.buildOk pj.metadata.name
        let pj' :=
          if subOk then
            { pj with status := { pj.status with
                state := .pending, description := "Jenkins job enqueued." } }
          else
            { pj with status := { pj.status with
                completionTime := some now, state := .error, url := testInfra,
                description := "Error starting Jenkins job." } }
        reportAndReplace kc adm.2 [Op.submit pj.metadata.name subOk] pj pj'
    | some _ =>
      -- A build already exists: advance to pending for the next tick.
      reportAndReplace kc pendingJobs [] pj
        { pj with status := { pj.status with
            state := .pending, description := "Jenkins job enqueued." } }

/-- Whether a record goes to the pending channel of the partition. -/
def isPendingRecord (pj : ProwJob) : Bool :=
  pj.status.state = ProwJobState.pending

/-- Modelled from the spec: `pjutil.PartitionPending` — split the records
into those with state pending and the rest. -/
def partitionPending (pjs : List ProwJob) : List ProwJob × List ProwJob :=
  (pjs.filter isPendingRecord, pjs.filter fun pj => ¬ isPendingRecord pj)

/-- Aggregated outcome of one worker-pool phase. -/
structure PhaseOut where
  pendingJobs : CountMap
  reports : List ProwJob
  ops : List Op
  errs : List Err
  finals : List ProwJob

/-- `syncProwJobs` from the source: apply the driver to each record of the
channel.  The embedding runs the records sequentially in list order, one
admissible schedule of the worker pool. -/
def runPhase (f : ProwJob → CountMap → SyncStep) :
    CountMap → List ProwJob → PhaseOut
  | m, [] =>
    { pendingJobs := m, reports := [], ops := [], errs := [], finals := [] }
  | m, pj :: rest =>
    let s := f pj m
    let r := runPhase f s.pendingJobs rest
    { pendingJobs := r.pendingJobs
      reports := s.reports ++ r.reports
      ops := s.ops ++ r.ops
      errs := (match s.err with | some e => [e] | none => []) ++ r.errs
      finals := s.final :: r.finals }

/-- Outcome of one full `Sync` tick. -/
structure TickResult where
  pendingJobs : CountMap
  records : List ProwJob
  reports : List ProwJob
  ops : List Op
  errs : List Err
  finals : List ProwJob

/-- One `Sync` tick from the source: filter to the Jenkins agent, dedupe,
partition, reset `pendingJobs`, run the pending phase, then the non-pending
phase.  `records` is the post-dedupe in-memory slice; `finals` are the
end-of-tick store versions of the pending-phase records followed by the
non-pending-phase records. -/
def syncTick (cfg : Config) (kc : KubeOracle) (jc : JenkinsOracle)
    (gh : GithubOracle) (now : Nat) (pjs0 : List ProwJob)
    (jbs : BuildMap) : TickResult :=
  let jenkinsJobs := pjs0.filter fun pj => pj.spec.agent = jenkinsAgent
  let dd := terminateDupes cfg kc jbs now jenkinsJobs
  let pjs := dd.1
  let parts := partitionPending pjs
  let pend := runPhase (syncPendingJob cfg kc gh now jbs) [] parts.1
  let nonp := runPhase (syncNonPendingJob cfg kc jc now jbs)
    pend.pendingJobs parts.2
  { pendingJobs := nonp.pendingJobs
    records := pjs
    reports := pend.reports ++ nonp.reports
    ops := dd.2.1 ++ pend.ops ++ nonp.ops
    errs := (match dd.2.2 with | some e => [e] | none => []) ++
      pend.errs ++ nonp.errs
    finals := pend.finals ++ nonp.finals }

/-! ## Concrete fixtures for witnesses and counterexamples -/

/-- A spec with the given job name, type, per-job cap and pulls. -/
def mkSpec (j : String) (ty : ProwJobType) (mc : Int) (pulls : List Pull) :
    ProwJobSpec :=
  .mk j jenkinsAgent ty mc { org := "o", repo := "r", pulls := pulls } []

/-- A record with the given name, spec fields and status fields. -/
def mkRecord (name j : String) (ty : ProwJobType) (mc : Int)
    (st : ProwJobState) (start : Nat) (ct : Option Nat)
    (pulls : List Pull) : ProwJob :=
  { metadata := { name := name, labels := [] }
    spec := mkSpec j ty mc pulls
    status := { state := st, startTime := start, completionTime := ct,
                description := "", url := "", podName := "", buildID := "" } }

/-- A permissive configuration: no global cap, no cancellations. -/
def cfgPlain : Config :=
  { maxConcurrency := 0, maxGoroutines := 1, allowCancellations := false,
    jobURLTemplate := fun pj => "url-" ++ pj.metadata.name,
    getPresubmit := fun _ _ => none }

/-- `cfgPlain` with cancellations allowed. -/
def cfgCancel : Config :=
  { cfgPlain with allowCancellations := true }

/-- A store oracle whose calls always succeed. -/
def kcOK : KubeOracle :=
  { replaceOk := fun _ => true, createOk := fun _ => true }

/-- A store oracle whose create calls always fail. -/
def kcNoCreate : KubeOracle :=
  { replaceOk := fun _ => true, createOk := fun _ => false }

/-- A store oracle whose replace calls always fail. -/
def kcNoReplace : KubeOracle :=
  { replaceOk := fun _ => false, createOk := fun _ => true }

/-- A Jenkins oracle whose submissions always succeed. -/
def jcOK : JenkinsOracle := { buildOk := fun _ => true }

/-- A GitHub oracle that reports no changed files. -/
def ghOK : GithubOracle := { getPullRequestChanges := fun _ _ _ => .ok [] }

/-- A build that is still running. -/
def runningBuild : JenkinsBuild :=
  { number := 7, isEnqueued := false, isRunning := true,
    isSuccess := false, isFailure := false, isAborted := false }

/-- A build sitting in the queue. -/
def enqueuedBuild : JenkinsBuild :=
  { number := 3, isEnqueued := true, isRunning := false,
    isSuccess := false, isFailure := false, isAborted := false }

/-- A successfully finished build. -/
def successBuild : JenkinsBuild :=
  { number := 9, isEnqueued := false, isRunning := false,
    isSuccess := true, isFailure := false, isAborted := false }

/-! ## Statement-support definitions -/

/-- Terminal states: success, failure, aborted, error. -/
def isTerminalState : ProwJobState → Bool
  | .success => true
  | .failure => true
  | .aborted => true
  | .error => true
  | _ => false

/-- The record name an operation addresses in the store or build backend
(`none` for creates, which make a fresh record, and for aborts, which
address a build). -/
def opRecordName : Op → Option String
  | .replace n _ _ => some n
  | .submit n _ => some n
  | _ => none

/-- The kind of a call, for counting calls of each flavour. -/
def opKind : Op → String
  | .replace _ _ _ => "replace"
  | .create _ _ _ => "create"
  | .submit _ _ => "submit"
  | .abort _ _ => "abort"

/-- The names of a record list, in order. -/
def recordNames (pjs : List ProwJob) : List String :=
  pjs.map fun pj => pj.metadata.name

/-- Number of reports addressed to a given record name. -/
def countNamed (x : String) (rs : List ProwJob) : Nat :=
  (rs.filter fun r => r.metadata.name = x).length

/-- Validity of the `dupes` index map relative to the current slice: every
entry points below the cursor at an untouched, dedupe-eligible record whose
key is the entry's key. -/
def dupesValid (dupes : IdxMap) (i : Nat) (pjs : List ProwJob) : Prop :=
  ∀ k p, lookupIdx dupes k = some p →
    p < i ∧ ∃ q, pjs[p]? = some q ∧ dedupeEligible q = true ∧ dedupeKey q = k

/-- Soundness of a single deduper call: it addresses a dedupe-eligible record
of the slice — a Replace writing exactly the aborted version of that record,
or an Abort of that record's existing, non-enqueued build, made only when
cancellations are allowed. -/
def dedupeOpSound (cfg : Config) (kc : KubeOracle) (jbs : BuildMap)
    (now : Nat) (pjs : List ProwJob) (op : Op) : Prop :=
  ∃ (j : Nat) (pj : ProwJob), pjs[j]? = some pj ∧ dedupeEligible pj = true ∧
    (op = Op.replace pj.metadata.name (markAborted now pj)
        (kc.replaceOk pj.metadata.name) ∨
     (∃ b, op = Op.abort pj.spec.job b.number ∧
        cfg.allowCancellations = true ∧
        lookupBuild jbs pj.metadata.name = some b ∧ b.isEnqueued = false))

/-- The record at index `w` is the dedupe winner of its key group: every
other eligible record with the same key either started strictly earlier, or
started at the same time and appears later in the list. -/
def dedupeWinner (pjs : List ProwJob) (w : Nat) (pw : ProwJob) : Prop :=
  pjs[w]? = some pw ∧ dedupeEligible pw = true ∧
  ∀ j pj, pjs[j]? = some pj → dedupeEligible pj = true →
    dedupeKey pj = dedupeKey pw → j ≠ w →
    (pj.status.startTime < pw.status.startTime ∨
     (pj.status.startTime = pw.status.startTime ∧ w < j))

/-! ## Further concrete fixtures -/

/-- Two presubmit records sharing the dedupe key with equal start times. -/
def pjTieA : ProwJob :=
  mkRecord "a" "J" .presubmit 0 .triggered 10 none [{ number := 1, sha := "s" }]

def pjTieB : ProwJob :=
  mkRecord "b" "J" .presubmit 0 .triggered 10 none [{ number := 1, sha := "s" }]

/-- A presubmit record superseding `pjOld` (same key, later start). -/
def pjNew : ProwJob :=
  mkRecord "a" "J" .presubmit 0 .triggered 10 none [{ number := 1, sha := "s" }]

def pjOld : ProwJob :=
  mkRecord "b" "J" .presubmit 0 .triggered 5 none [{ number := 1, sha := "s" }]

/-- A triggered periodic record named "t". -/
def pjT : ProwJob :=
  mkRecord "t" "J" .periodic 0 .triggered 5 none []

/-- A build map with a running build for record "t". -/
def jbsT : BuildMap := [("t", runningBuild)]

/-- A complete (successful) record named "done". -/
def pjDone : ProwJob :=
  mkRecord "done" "J" .periodic 0 .success 1 (some 2) []

/-- Soundness of a deduper run relative to the slice it started from: every
slice entry is unchanged or replaced by its aborted version (with the
corresponding successful Replace call recorded), and every call made is
sound. -/
def DedupeSound (cfg : Config) (kc : KubeOracle) (jbs : BuildMap) (now : Nat)
    (pjs : List ProwJob) (res : List ProwJob × List Op × Option Err) : Prop :=
  (∀ (j : Nat), res.1[j]? = pjs[j]? ∨
    ∃ (pj : ProwJob), pjs[j]? = some pj ∧ dedupeEligible pj = true ∧
      res.1[j]? = some (markAborted now pj) ∧
      Op.replace pj.metadata.name (markAborted now pj) true ∈ res.2.1) ∧
  (∀ op ∈ res.2.1, dedupeOpSound cfg kc jbs now pjs op) ∧
  (∀ (e : Err), res.2.2 = some e →
    ∃ (nm : String), e = Err.replaceFailed nm ∧ kc.replaceOk nm = false)

def jbsEnqB : BuildMap := [("b", enqueuedBuild)]

/-- Fixture: a follow-up child spec and a pending parent carrying it. -/
def childSpec : ProwJobSpec := mkSpec "child" .periodic 0 []

def pjParent : ProwJob :=
  { metadata := { name := "par", labels := [] }
    spec := .mk "P" jenkinsAgent .periodic 0
      { org := "o", repo := "r", pulls := [] } [childSpec]
    status := { state := .pending, startTime := 1, completionTime := none,
                description := "", url := "", podName := "", buildID := "" } }

def jbsPar : BuildMap := [("par", successBuild)]

/-- A build snapshot satisfying at least one of the five predicates (every
real Jenkins build does). -/
def BuildTotal (jb : JenkinsBuild) : Prop :=
  jb.isEnqueued = true ∨ jb.isRunning = true ∨ jb.isSuccess = true ∨
    jb.isFailure = true ∨ jb.isAborted = true

/-- Fixture: the tick's persisted version of `pjT` after a successful
submit. -/
def qfT : ProwJob :=
  { pjT with status :=
      { pjT.status with
          state := .pending, description := "Jenkins job enqueued." } }

/-! ## C2: concurrency admission -/

/-- Negative per-job cap fixture for the C2 counterexample. -/
def pjNegCap : ProwJob :=
  mkRecord "neg" "J" .periodic (-1) .triggered 0 none []

/-- C2 (counterexample): the claim says `canExecuteConcurrently` denies
exactly when the global cap is hit or `spec.max_concurrency > 0` is
saturated.  A record with `spec.max_concurrency = -1` (a Go `int` field) is
denied by the code — `pendingJobs[job] >= -1` always holds — although
neither disjunct of the claim holds, so the claim's biconditional is false
at this input. -/
theorem canExecuteConcurrently_claim_cex :
    (canExecuteConcurrently cfgPlain [] pjNegCap).1 = false ∧
    ¬ ((cfgPlain.maxConcurrency > 0 ∧
          (sumCounts [] : Int) ≥ cfgPlain.maxConcurrency) ∨
       (pjNegCap.spec.maxConcurrency > 0 ∧
          (lookupCount [] pjNegCap.spec.job : Int) ≥
            pjNegCap.spec.maxConcurrency)) := by
  decide

theorem canExecuteConcurrently_cases (cfg : Config) (m : CountMap)
    (pj : ProwJob) :
    ((canExecuteConcurrently cfg m pj).1 = false ↔
      (cfg.maxConcurrency > 0 ∧ (sumCounts m : Int) ≥ cfg.maxConcurrency) ∨
      (pj.spec.maxConcurrency ≠ 0 ∧
        (lookupCount m pj.spec.job : Int) ≥ pj.spec.maxConcurrency)) ∧
    ((canExecuteConcurrently cfg m pj).1 = true →
      (canExecuteConcurrently cfg m pj).2 = incrCount m pj.spec.job) ∧
    ((canExecuteConcurrently cfg m pj).1 = false →
      (canExecuteConcurrently cfg m pj).2 = m) := by
  unfold canExecuteConcurrently
  split_ifs with h1 h2 h3 <;> simp_all

/-- C2 (amended): `canExecuteConcurrently` denies exactly when the configured
global `MaxConcurrency > 0` and the sum of all `pendingJobs` counts reaches
it, or the record's `spec.max_concurrency ≠ 0` and `pendingJobs[spec.job]`
reaches it; every accepting call increments `pendingJobs[spec.job]` by one
and every denying call leaves the counter unchanged. -/
theorem canExecuteConcurrently_spec (cfg : Config) (m : CountMap)
    (pj : ProwJob) :
    ((canExecuteConcurrently cfg m pj).1 = false ↔
      (cfg.maxConcurrency > 0 ∧ (sumCounts m : Int) ≥ cfg.maxConcurrency) ∨
      (pj.spec.maxConcurrency ≠ 0 ∧
        (lookupCount m pj.spec.job : Int) ≥ pj.spec.maxConcurrency)) ∧
    ((canExecuteConcurrently cfg m pj).1 = true →
      (canExecuteConcurrently cfg m pj).2 = incrCount m pj.spec.job) ∧
    ((canExecuteConcurrently cfg m pj).1 = false →
      (canExecuteConcurrently cfg m pj).2 = m) :=
  canExecuteConcurrently_cases cfg m pj

/-- Witness for the implication parts of `canExecuteConcurrently_spec`: a
record with per-job cap 2 against one already-pending instance is accepted
and the counter is incremented. -/
theorem canExecuteConcurrently_spec_witness :
    (canExecuteConcurrently cfgPlain [("J", 1)]
      (mkRecord "w" "J" .periodic 2 .triggered 0 none [])).2 =
      incrCount [("J", 1)] "J" :=
  (canExecuteConcurrently_spec cfgPlain [("J", 1)]
    (mkRecord "w" "J" .periodic 2 .triggered 0 none [])).2.1 (by decide)

theorem lookupIdx_setIdx (m : IdxMap) (k k' : String) (i : Nat) :
    lookupIdx (setIdx m k i) k' = if k' = k then some i else lookupIdx m k' := by
  induction m with
  | nil =>
    simp only [setIdx, lookupIdx]
    split_ifs with h1 <;> simp_all [lookupIdx]
  | cons hd tl ih =>
    obtain ⟨k0, j0⟩ := hd
    by_cases h0 : k0 = k <;> by_cases h1 : k' = k <;> by_cases h2 : k0 = k' <;>
      simp_all [setIdx, lookupIdx]

theorem markAborted_not_eligible (now : Nat) (pj : ProwJob) :
    dedupeEligible (markAborted now pj) = false := by
  simp [dedupeEligible, markAborted, ProwJob.Complete]

theorem markAborted_name (now : Nat) (pj : ProwJob) :
    (markAborted now pj).metadata = pj.metadata := rfl

theorem dupesValid_weaken {dupes : IdxMap} {i : Nat} {pjs : List ProwJob}
    (h : dupesValid dupes i pjs) : dupesValid dupes (i + 1) pjs :=
  fun k p hp => ⟨Nat.lt_succ_of_lt (h k p hp).1, (h k p hp).2⟩

theorem dupesValid_set {dupes : IdxMap} {i : Nat} {pjs : List ProwJob}
    {pj : ProwJob} (h : dupesValid dupes i pjs)
    (hpi : pjs[i]? = some pj) (hel : dedupeEligible pj = true) :
    dupesValid (setIdx dupes (dedupeKey pj) i) (i + 1) pjs := by
  intro k p hp
  rw [lookupIdx_setIdx] at hp
  split_ifs at hp with hk
  · injection hp with hp
    subst hp; subst hk
    exact ⟨Nat.lt_succ_self _, pj, hpi, hel, rfl⟩
  · exact ⟨Nat.lt_succ_of_lt (h k p hp).1, (h k p hp).2⟩

theorem dupesValid_update {dupes : IdxMap} {i : Nat} {pjs : List ProwJob}
    (h : dupesValid dupes i pjs) (ci : Nat) (x : ProwJob)
    (hci : ∀ k p, lookupIdx dupes k = some p → p ≠ ci) :
    dupesValid dupes i (pjs.set ci x) := by
  intro k p hp
  obtain ⟨hlt, q, hq, hel, hkey⟩ := h k p hp
  refine ⟨hlt, q, ?_, hel, hkey⟩
  rw [List.getElem?_set_ne]
  · exact hq
  · exact fun he => (hci k p hp) he.symm


theorem dedupeAbortOps_sound (cfg : Config) (kc : KubeOracle) (jbs : BuildMap)
    (now : Nat) {pjs : List ProwJob} {ci : Nat} {tc : ProwJob}
    (htc : pjs[ci]? = some tc) (htcel : dedupeEligible tc = true)
    (hskip : ¬ dedupeSkip cfg jbs tc = true) :
    ∀ op ∈ dedupeAbortOps cfg jbs tc, dedupeOpSound cfg kc jbs now pjs op := by
  intro op hop
  unfold dedupeAbortOps at hop
  split_ifs at hop with hac
  · cases hlb : lookupBuild jbs tc.metadata.name with
    | none => rw [hlb] at hop; exact absurd hop (List.not_mem_nil op)
    | some b =>
      rw [hlb] at hop
      rcases List.mem_singleton.mp hop with rfl
      have hbe : b.isEnqueued = false := by
        simp [dedupeSkip, hac, hlb] at hskip
        exact hskip
      exact ⟨ci, tc, htc, htcel, Or.inr ⟨b, rfl, hac, hlb, hbe⟩⟩
  · exact absurd hop (List.not_mem_nil op)

theorem DedupeSound_cancel (cfg : Config) (kc : KubeOracle) (jbs : BuildMap)
    (now : Nat) {pjs : List ProwJob} {ci : Nat} {tc : ProwJob}
    (htc : pjs[ci]? = some tc) (htcel : dedupeEligible tc = true)
    (hcilen : ci < pjs.length)
    {r : List ProwJob × List Op × Option Err}
    (hrec : DedupeSound cfg kc jbs now (pjs.set ci (markAborted now tc)) r)
    {abortOps : List Op}
    (habort : ∀ op ∈ abortOps, dedupeOpSound cfg kc jbs now pjs op)
    (hrep : kc.replaceOk tc.metadata.name = true) :
    DedupeSound cfg kc jbs now pjs
      (r.1,
       abortOps ++ Op.replace tc.metadata.name (markAborted now tc) true ::
         r.2.1,
       r.2.2) := by
  obtain ⟨hch, hops, herr⟩ := hrec
  refine ⟨?_, ?_, herr⟩
  · intro j
    by_cases hj : j = ci
    · subst hj
      rcases hch j with h | ⟨pjX, hX, hXel, _, _⟩
      · right
        refine ⟨tc, htc, htcel, ?_, ?_⟩
        · rw [h, List.getElem?_set_eq hcilen]
        · exact List.mem_append_right _ (List.mem_cons_self _ _)
      · rw [List.getElem?_set_eq hcilen] at hX
        injection hX with hX
        rw [← hX, markAborted_not_eligible] at hXel
        exact absurd hXel (by simp)
    · rcases hch j with h | ⟨pjX, hX, hXel, hres, hmem⟩
      · left
        rw [h, List.getElem?_set_ne (fun he => hj he.symm)]
      · right
        rw [List.getElem?_set_ne (fun he => hj he.symm)] at hX
        exact ⟨pjX, hX, hXel, hres,
          List.mem_append_right _ (List.mem_cons_of_mem _ hmem)⟩
  · intro op hop
    rcases List.mem_append.mp hop with h | h
    · exact habort op h
    · rcases List.mem_cons.mp h with h | h
      · subst h
        exact ⟨ci, tc, htc, htcel, Or.inl (by rw [hrep])⟩
      · obtain ⟨jX, pjX, hX, hXel, hrest⟩ := hops op h
        have hne : jX ≠ ci := by
          intro he; subst he
          rw [List.getElem?_set_eq hcilen] at hX
          injection hX with hX
          rw [← hX, markAborted_not_eligible] at hXel
          exact absurd hXel (by simp)
        rw [List.getElem?_set_ne (fun he => hne he.symm)] at hX
        exact ⟨jX, pjX, hX, hXel, hrest⟩

theorem DedupeSound_cancelFail (cfg : Config) (kc : KubeOracle)
    (jbs : BuildMap) (now : Nat) {pjs : List ProwJob} {ci : Nat} {tc : ProwJob}
    (htc : pjs[ci]? = some tc) (htcel : dedupeEligible tc = true)
    {abortOps : List Op}
    (habort : ∀ op ∈ abortOps, dedupeOpSound cfg kc jbs now pjs op)
    (hrep : kc.replaceOk tc.metadata.name = false) :
    DedupeSound cfg kc jbs now pjs
      (pjs,
       abortOps ++ [Op.replace tc.metadata.name (markAborted now tc) false],
       some (.replaceFailed tc.metadata.name)) := by
  refine ⟨?_, ?_, ?_⟩
  · intro j; left; rfl
  · intro op hop
    rcases List.mem_append.mp hop with h | h
    · exact habort op h
    · rcases List.mem_singleton.mp h with rfl
      exact ⟨ci, tc, htc, htcel, Or.inl (by rw [hrep])⟩
  · intro e he
    injection he with he
    exact ⟨tc.metadata.name, he.symm, hrep⟩

set_option maxHeartbeats 1000000 in
theorem terminateDupesGo_sound (cfg : Config) (kc : KubeOracle)
    (jbs : BuildMap) (now : Nat) :
    ∀ (fuel i : Nat) (dupes : IdxMap) (pjs : List ProwJob),
      dupesValid dupes i pjs →
      DedupeSound cfg kc jbs now pjs
        (terminateDupesGo cfg kc jbs now fuel i dupes pjs) := by
  intro fuel
  induction fuel with
  | zero =>
    intro i dupes pjs _
    refine ⟨?_, ?_, ?_⟩
    · intro j; left; simp [terminateDupesGo]
    · intro op hop; simp [terminateDupesGo] at hop
    · intro e he; simp [terminateDupesGo] at he
  | succ fuel ih =>
    intro i dupes pjs hval
    cases hpi : pjs[i]? with
    | none =>
      refine ⟨?_, ?_, ?_⟩
      · intro j; left; simp [terminateDupesGo, hpi]
      · intro op hop; simp [terminateDupesGo, hpi] at hop
      · intro e he; simp [terminateDupesGo, hpi] at he
    | some pj =>
      by_cases hel : dedupeEligible pj = true
      · cases hlk : lookupIdx dupes (dedupeKey pj) with
        | none =>
          have hstep : terminateDupesGo cfg kc jbs now (fuel + 1) i dupes pjs =
              terminateDupesGo cfg kc jbs now fuel (i + 1)
                (setIdx dupes (dedupeKey pj) i) pjs := by
            simp [terminateDupesGo, hpi, hel, hlk]
          rw [hstep]
          exact ih (i + 1) (setIdx dupes (dedupeKey pj) i) pjs
            (dupesValid_set hval hpi hel)
        | some prev =>
          obtain ⟨hprevlt, q, hq, hqel, hqkey⟩ := hval (dedupeKey pj) prev hlk
          have hprevlen : prev < pjs.length := by
            rcases List.getElem?_eq_some.mp hq with ⟨h, _⟩
            exact h
          have hilen : i < pjs.length := by
            rcases List.getElem?_eq_some.mp hpi with ⟨h, _⟩
            exact h
          by_cases hnew : startTimeAt pjs prev < pj.status.startTime
          · -- the current record is newer: `prev` is the cancel target
            by_cases hskip : dedupeSkip cfg jbs q = true
            · have hstep : terminateDupesGo cfg kc jbs now (fuel + 1) i dupes
                  pjs =
                  terminateDupesGo cfg kc jbs now fuel (i + 1)
                    (setIdx dupes (dedupeKey pj) i) pjs := by
                simp [terminateDupesGo, hpi, hel, hlk, hnew, hq, hskip]
              rw [hstep]
              exact ih (i + 1) (setIdx dupes (dedupeKey pj) i) pjs
                (dupesValid_set hval hpi hel)
            · have hvalid2 : dupesValid (setIdx dupes (dedupeKey pj) i) (i + 1)
                  (pjs.set prev (markAborted now q)) := by
                apply dupesValid_update (dupesValid_set hval hpi hel)
                intro k p hp
                rw [lookupIdx_setIdx] at hp
                split_ifs at hp with hk
                · injection hp with hp
                  omega
                · intro he
                  obtain ⟨_, q', hq', _, hq'key⟩ := hval k p hp
                  rw [he, hq] at hq'
                  injection hq' with hq'
                  exact hk (by rw [← hq'key, ← hq']; exact hqkey)
              by_cases hrep : kc.replaceOk q.metadata.name = true
              · have hstep : terminateDupesGo cfg kc jbs now (fuel + 1) i
                    dupes pjs =
                    ((terminateDupesGo cfg kc jbs now fuel (i + 1)
                        (setIdx dupes (dedupeKey pj) i)
                        (pjs.set prev (markAborted now q))).1,
                     dedupeAbortOps cfg jbs q ++
                       Op.replace q.metadata.name (markAborted now q) true ::
                         (terminateDupesGo cfg kc jbs now fuel (i + 1)
                           (setIdx dupes (dedupeKey pj) i)
                           (pjs.set prev (markAborted now q))).2.1,
                     (terminateDupesGo cfg kc jbs now fuel (i + 1)
                       (setIdx dupes (dedupeKey pj) i)
                       (pjs.set prev (markAborted now q))).2.2) := by
                  simp [terminateDupesGo, hpi, hel, hlk, hnew, hq, hskip, hrep]
                rw [hstep]
                exact DedupeSound_cancel cfg kc jbs now hq hqel hprevlen
                  (ih (i + 1) (setIdx dupes (dedupeKey pj) i)
                    (pjs.set prev (markAborted now q)) hvalid2)
                  (dedupeAbortOps_sound cfg kc jbs now hq hqel hskip) hrep
              · have hrep' : kc.replaceOk q.metadata.name = false := by
                  cases h : kc.replaceOk q.metadata.name
                  · rfl
                  · exact absurd h hrep
                have hstep : terminateDupesGo cfg kc jbs now (fuel + 1) i
                    dupes pjs =
                    (pjs,
                     dedupeAbortOps cfg jbs q ++
                       [Op.replace q.metadata.name (markAborted now q) false],
                     some (.replaceFailed q.metadata.name)) := by
                  simp [terminateDupesGo, hpi, hel, hlk, hnew, hq, hskip, hrep']
                rw [hstep]
                exact DedupeSound_cancelFail cfg kc jbs now hq hqel
                  (dedupeAbortOps_sound cfg kc jbs now hq hqel hskip) hrep'
          · -- the current record is not newer: `i` is the cancel target
            by_cases hskip : dedupeSkip cfg jbs pj = true
            · have hstep : terminateDupesGo cfg kc jbs now (fuel + 1) i dupes
                  pjs =
                  terminateDupesGo cfg kc jbs now fuel (i + 1) dupes pjs := by
                simp [terminateDupesGo, hpi, hel, hlk, hnew, hskip]
              rw [hstep]
              exact ih (i + 1) dupes pjs (dupesValid_weaken hval)
            · have hvalid2 : dupesValid dupes (i + 1)
                  (pjs.set i (markAborted now pj)) := by
                apply dupesValid_update (dupesValid_weaken hval)
                intro k p hp
                have := (hval k p hp).1
                omega
              by_cases hrep : kc.replaceOk pj.metadata.name = true
              · have hstep : terminateDupesGo cfg kc jbs now (fuel + 1) i
                    dupes pjs =
                    ((terminateDupesGo cfg kc jbs now fuel (i + 1) dupes
                        (pjs.set i (markAborted now pj))).1,
                     dedupeAbortOps cfg jbs pj ++
                       Op.replace pj.metadata.name (markAborted now pj) true ::
                         (terminateDupesGo cfg kc jbs now fuel (i + 1) dupes
                           (pjs.set i (markAborted now pj))).2.1,
                     (terminateDupesGo cfg kc jbs now fuel (i + 1) dupes
                       (pjs.set i (markAborted now pj))).2.2) := by
                  simp [terminateDupesGo, hpi, hel, hlk, hnew, hskip, hrep]
                rw [hstep]
                exact DedupeSound_cancel cfg kc jbs now hpi hel hilen
                  (ih (i + 1) dupes (pjs.set i (markAborted now pj)) hvalid2)
                  (dedupeAbortOps_sound cfg kc jbs now hpi hel hskip) hrep
              · have hrep' : kc.replaceOk pj.metadata.name = false := by
                  cases h : kc.replaceOk pj.metadata.name
                  · rfl
                  · exact absurd h hrep
                have hstep : terminateDupesGo cfg kc jbs now (fuel + 1) i
                    dupes pjs =
                    (pjs,
                     dedupeAbortOps cfg jbs pj ++
                       [Op.replace pj.metadata.name (markAborted now pj) false],
                     some (.replaceFailed pj.metadata.name)) := by
                  simp [terminateDupesGo, hpi, hel, hlk, hnew, hskip, hrep']
                rw [hstep]
                exact DedupeSound_cancelFail cfg kc jbs now hpi hel
                  (dedupeAbortOps_sound cfg kc jbs now hpi hel hskip) hrep'
      · have hel' : dedupeEligible pj = false := by
          cases h : dedupeEligible pj
          · rfl
          · exact absurd h hel
        have hstep : terminateDupesGo cfg kc jbs now (fuel + 1) i dupes pjs =
            terminateDupesGo cfg kc jbs now fuel (i + 1) dupes pjs := by
          simp [terminateDupesGo, hpi, hel']
        rw [hstep]
        exact ih (i + 1) dupes pjs (dupesValid_weaken hval)

theorem dedupeWinner_set {pjs : List ProwJob} {w : Nat} {pw : ProwJob}
    (hwin : dedupeWinner pjs w pw) (ci : Nat) (x : ProwJob)
    (hx : dedupeEligible x = false) (hci : ci ≠ w) :
    dedupeWinner (pjs.set ci x) w pw := by
  obtain ⟨hw, hwel, hcmp⟩ := hwin
  refine ⟨?_, hwel, ?_⟩
  · rw [List.getElem?_set_ne hci]
    exact hw
  · intro j pjX hX hXel hkey hjw
    by_cases hj : ci = j
    · subst hj
      rcases Nat.lt_or_ge ci pjs.length with hlt | hge
      · rw [List.getElem?_set_eq hlt] at hX
        injection hX with hX
        rw [← hX, hx] at hXel
        exact absurd hXel (by simp)
      · rw [List.getElem?_eq_none (by simpa using hge)] at hX
        cases hX
    · rw [List.getElem?_set_ne hj] at hX
      exact hcmp j pjX hX hXel hkey hjw

set_option maxHeartbeats 1000000 in
theorem terminateDupesGo_winner (cfg : Config) (kc : KubeOracle)
    (jbs : BuildMap) (now : Nat) :
    ∀ (fuel i : Nat) (dupes : IdxMap) (pjs : List ProwJob) (w : Nat)
      (pw : ProwJob),
      dupesValid dupes i pjs → dedupeWinner pjs w pw →
      (terminateDupesGo cfg kc jbs now fuel i dupes pjs).1[w]? = some pw := by
  intro fuel
  induction fuel with
  | zero =>
    intro i dupes pjs w pw _ hwin
    simpa [terminateDupesGo] using hwin.1
  | succ fuel ih =>
    intro i dupes pjs w pw hval hwin
    cases hpi : pjs[i]? with
    | none => simpa [terminateDupesGo, hpi] using hwin.1
    | some pj =>
      by_cases hel : dedupeEligible pj = true
      · cases hlk : lookupIdx dupes (dedupeKey pj) with
        | none =>
          have hstep : terminateDupesGo cfg kc jbs now (fuel + 1) i dupes pjs =
              terminateDupesGo cfg kc jbs now fuel (i + 1)
                (setIdx dupes (dedupeKey pj) i) pjs := by
            simp [terminateDupesGo, hpi, hel, hlk]
          rw [hstep]
          exact ih (i + 1) (setIdx dupes (dedupeKey pj) i) pjs w pw
            (dupesValid_set hval hpi hel) hwin
        | some prev =>
          obtain ⟨hprevlt, q, hq, hqel, hqkey⟩ := hval (dedupeKey pj) prev hlk
          have hprevlen : prev < pjs.length := by
            rcases List.getElem?_eq_some.mp hq with ⟨h, _⟩
            exact h
          have hilen : i < pjs.length := by
            rcases List.getElem?_eq_some.mp hpi with ⟨h, _⟩
            exact h
          have hstq : startTimeAt pjs prev = q.status.startTime := by
            simp [startTimeAt, List.get?_eq_getElem?, hq]
          by_cases hnew : startTimeAt pjs prev < pj.status.startTime
          · -- cancel target is prev (= q); the winner is never prev here
            have hprevw : prev ≠ w := by
              intro he
              have hq' : some q = some pw := by rw [← hq, he, hwin.1]
              injection hq' with hq'
              have hiw : i ≠ w := by omega
              have hkeyw : dedupeKey pj = dedupeKey pw := by
                rw [← hq', ← hqkey]
              rcases hwin.2.2 i pj hpi hel hkeyw hiw with hlt | ⟨heq, hwlt⟩
              · rw [hstq, hq'] at hnew; omega
              · rw [hstq, hq'] at hnew; omega
            by_cases hskip : dedupeSkip cfg jbs q = true
            · have hstep : terminateDupesGo cfg kc jbs now (fuel + 1) i dupes
                  pjs =
                  terminateDupesGo cfg kc jbs now fuel (i + 1)
                    (setIdx dupes (dedupeKey pj) i) pjs := by
                simp [terminateDupesGo, hpi, hel, hlk, hnew, hq, hskip]
              rw [hstep]
              exact ih (i + 1) (setIdx dupes (dedupeKey pj) i) pjs w pw
                (dupesValid_set hval hpi hel) hwin
            · have hvalid2 : dupesValid (setIdx dupes (dedupeKey pj) i) (i + 1)
                  (pjs.set prev (markAborted now q)) := by
                apply dupesValid_update (dupesValid_set hval hpi hel)
                intro k p hp
                rw [lookupIdx_setIdx] at hp
                split_ifs at hp with hk
                · injection hp with hp
                  omega
                · intro he
                  obtain ⟨_, q', hq', _, hq'key⟩ := hval k p hp
                  rw [he, hq] at hq'
                  injection hq' with hq'
                  exact hk (by rw [← hq'key, ← hq']; exact hqkey)
              have hwin2 : dedupeWinner (pjs.set prev (markAborted now q)) w
                  pw :=
                dedupeWinner_set hwin prev (markAborted now q)
                  (markAborted_not_eligible now q) hprevw
              by_cases hrep : kc.replaceOk q.metadata.name = true
              · have hstep : terminateDupesGo cfg kc jbs now (fuel + 1) i
                    dupes pjs =
                    ((terminateDupesGo cfg kc jbs now fuel (i + 1)
                        (setIdx dupes (dedupeKey pj) i)
                        (pjs.set prev (markAborted now q))).1,
                     dedupeAbortOps cfg jbs q ++
                       Op.replace q.metadata.name (markAborted now q) true ::
                         (terminateDupesGo cfg kc jbs now fuel (i + 1)
                           (setIdx dupes (dedupeKey pj) i)
                           (pjs.set prev (markAborted now q))).2.1,
                     (terminateDupesGo cfg kc jbs now fuel (i + 1)
                       (setIdx dupes (dedupeKey pj) i)
                       (pjs.set prev (markAborted now q))).2.2) := by
                  simp [terminateDupesGo, hpi, hel, hlk, hnew, hq, hskip, hrep]
                rw [hstep]
                exact ih (i + 1) (setIdx dupes (dedupeKey pj) i)
                  (pjs.set prev (markAborted now q)) w pw hvalid2 hwin2
              · have hrep' : kc.replaceOk q.metadata.name = false := by
                  cases h : kc.replaceOk q.metadata.name
                  · rfl
                  · exact absurd h hrep
                have hstep : terminateDupesGo cfg kc jbs now (fuel + 1) i
                    dupes pjs =
                    (pjs,
                     dedupeAbortOps cfg jbs q ++
                       [Op.replace q.metadata.name (markAborted now q) false],
                     some (.replaceFailed q.metadata.name)) := by
                  simp [terminateDupesGo, hpi, hel, hlk, hnew, hq, hskip, hrep']
                rw [hstep]
                exact hwin.1
          · -- cancel target is the current index i; the winner is never i here
            have hiw : i ≠ w := by
              intro he
              have hpj' : some pj = some pw := by rw [← hpi, he, hwin.1]
              injection hpj' with hpj'
              have hprevw : prev ≠ w := by omega
              have hkeyw : dedupeKey q = dedupeKey pw := by
                rw [← hpj']; exact hqkey
              rcases hwin.2.2 prev q hq hqel hkeyw hprevw with hlt | ⟨heq, hwlt⟩
              · rw [hstq] at hnew
                rw [hpj'] at hnew
                omega
              · omega
            by_cases hskip : dedupeSkip cfg jbs pj = true
            · have hstep : terminateDupesGo cfg kc jbs now (fuel + 1) i dupes
                  pjs =
                  terminateDupesGo cfg kc jbs now fuel (i + 1) dupes pjs := by
                simp [terminateDupesGo, hpi, hel, hlk, hnew, hskip]
              rw [hstep]
              exact ih (i + 1) dupes pjs w pw (dupesValid_weaken hval) hwin
            · have hvalid2 : dupesValid dupes (i + 1)
                  (pjs.set i (markAborted now pj)) := by
                apply dupesValid_update (dupesValid_weaken hval)
                intro k p hp
                have := (hval k p hp).1
                omega
              have hwin2 : dedupeWinner (pjs.set i (markAborted now pj)) w
                  pw :=
                dedupeWinner_set hwin i (markAborted now pj)
                  (markAborted_not_eligible now pj) hiw
              by_cases hrep : kc.replaceOk pj.metadata.name = true
              · have hstep : terminateDupesGo cfg kc jbs now (fuel + 1) i
                    dupes pjs =
                    ((terminateDupesGo cfg kc jbs now fuel (i + 1) dupes
                        (pjs.set i (markAborted now pj))).1,
                     dedupeAbortOps cfg jbs pj ++
                       Op.replace pj.metadata.name (markAborted now pj) true ::
                         (terminateDupesGo cfg kc jbs now fuel (i + 1) dupes
                           (pjs.set i (markAborted now pj))).2.1,
                     (terminateDupesGo cfg kc jbs now fuel (i + 1) dupes
                       (pjs.set i (markAborted now pj))).2.2) := by
                  simp [terminateDupesGo, hpi, hel, hlk, hnew, hskip, hrep]
                rw [hstep]
                exact ih (i + 1) dupes (pjs.set i (markAborted now pj)) w pw
                  hvalid2 hwin2
              · have hrep' : kc.replaceOk pj.metadata.name = false := by
                  cases h : kc.replaceOk pj.metadata.name
                  · rfl
                  · exact absurd h hrep
                have hstep : terminateDupesGo cfg kc jbs now (fuel + 1) i
                    dupes pjs =
                    (pjs,
                     dedupeAbortOps cfg jbs pj ++
                       [Op.replace pj.metadata.name (markAborted now pj) false],
                     some (.replaceFailed pj.metadata.name)) := by
                  simp [terminateDupesGo, hpi, hel, hlk, hnew, hskip, hrep']
                rw [hstep]
                exact hwin.1
      · have hel' : dedupeEligible pj = false := by
          cases h : dedupeEligible pj
          · rfl
          · exact absurd h hel
        have hstep : terminateDupesGo cfg kc jbs now (fuel + 1) i dupes pjs =
            terminateDupesGo cfg kc jbs now fuel (i + 1) dupes pjs := by
          simp [terminateDupesGo, hpi, hel']
        rw [hstep]
        exact ih (i + 1) dupes pjs w pw (dupesValid_weaken hval) hwin

/-- The empty `dupes` map is valid at the start of the pass. -/
theorem dupesValid_nil (pjs : List ProwJob) : dupesValid [] 0 pjs := by
  intro k p hp
  simp [lookupIdx] at hp

theorem terminateDupes_sound (cfg : Config) (kc : KubeOracle) (jbs : BuildMap)
    (now : Nat) (pjs : List ProwJob) :
    DedupeSound cfg kc jbs now pjs (terminateDupes cfg kc jbs now pjs) :=
  terminateDupesGo_sound cfg kc jbs now pjs.length 0 [] pjs
    (dupesValid_nil pjs)

theorem dedupeAbortOps_no_replace (cfg : Config) (jbs : BuildMap)
    (tc : ProwJob) (nm : String) (v : ProwJob) (ok : Bool) :
    Op.replace nm v ok ∉ dedupeAbortOps cfg jbs tc := by
  intro h
  unfold dedupeAbortOps at h
  cases hac : cfg.allowCancellations with
  | false => simp [hac] at h
  | true =>
    cases hlb : lookupBuild jbs tc.metadata.name with
    | none => simp [hac, hlb] at h
    | some b => simp [hac, hlb] at h

set_option maxHeartbeats 1000000 in
theorem terminateDupesGo_fail_err (cfg : Config) (kc : KubeOracle)
    (jbs : BuildMap) (now : Nat) :
    ∀ (fuel i : Nat) (dupes : IdxMap) (pjs : List ProwJob) (nm : String)
      (v : ProwJob),
      Op.replace nm v false ∈
        (terminateDupesGo cfg kc jbs now fuel i dupes pjs).2.1 →
      (terminateDupesGo cfg kc jbs now fuel i dupes pjs).2.2 =
        some (Err.replaceFailed nm) := by
  intro fuel
  induction fuel with
  | zero =>
    intro i dupes pjs nm v h
    simp [terminateDupesGo] at h
  | succ fuel ih =>
    intro i dupes pjs nm v h
    cases hpi : pjs[i]? with
    | none => simp [terminateDupesGo, hpi] at h
    | some pj =>
      by_cases hel : dedupeEligible pj = true
      · cases hlk : lookupIdx dupes (dedupeKey pj) with
        | none =>
          have hstep : terminateDupesGo cfg kc jbs now (fuel + 1) i dupes pjs =
              terminateDupesGo cfg kc jbs now fuel (i + 1)
                (setIdx dupes (dedupeKey pj) i) pjs := by
            simp [terminateDupesGo, hpi, hel, hlk]
          rw [hstep] at h ⊢
          exact ih _ _ _ _ _ h
        | some prev =>
          by_cases hnew : startTimeAt pjs prev < pj.status.startTime
          · -- the current record is newer: `prev` is the cancel target
            by_cases hskip : dedupeSkip cfg jbs (pjs[prev]?.getD pj) = true
            · have hstep : terminateDupesGo cfg kc jbs now (fuel + 1) i dupes
                  pjs =
                  terminateDupesGo cfg kc jbs now fuel (i + 1)
                    (setIdx dupes (dedupeKey pj) i) pjs := by
                simp [terminateDupesGo, hpi, hel, hlk, hnew, hskip]
              rw [hstep] at h ⊢
              exact ih _ _ _ _ _ h
            · by_cases hrep :
                  kc.replaceOk (pjs[prev]?.getD pj).metadata.name = true
              · have hstep : terminateDupesGo cfg kc jbs now (fuel + 1) i
                    dupes pjs =
                    ((terminateDupesGo cfg kc jbs now fuel (i + 1)
                        (setIdx dupes (dedupeKey pj) i)
                        (pjs.set prev
                          (markAborted now (pjs[prev]?.getD pj)))).1,
                     dedupeAbortOps cfg jbs (pjs[prev]?.getD pj) ++
                       Op.replace (pjs[prev]?.getD pj).metadata.name
                         (markAborted now (pjs[prev]?.getD pj)) true ::
                         (terminateDupesGo cfg kc jbs now fuel (i + 1)
                           (setIdx dupes (dedupeKey pj) i)
                           (pjs.set prev
                             (markAborted now (pjs[prev]?.getD pj)))).2.1,
                     (terminateDupesGo cfg kc jbs now fuel (i + 1)
                       (setIdx dupes (dedupeKey pj) i)
                       (pjs.set prev
                         (markAborted now (pjs[prev]?.getD pj)))).2.2) := by
                  simp [terminateDupesGo, hpi, hel, hlk, hnew, hskip, hrep]
                rw [hstep] at h ⊢
                dsimp only at h ⊢
                rcases List.mem_append.mp h with habort | hco
                · exact absurd habort (dedupeAbortOps_no_replace cfg jbs _
                    nm v false)
                · rcases List.mem_cons.mp hco with heq | hrest
                  · simp at heq
                  · exact ih _ _ _ _ _ hrest
              · have hrep' :
                    kc.replaceOk (pjs[prev]?.getD pj).metadata.name = false := by
                  cases hx : kc.replaceOk (pjs[prev]?.getD pj).metadata.name
                  · rfl
                  · exact absurd hx hrep
                have hstep : terminateDupesGo cfg kc jbs now (fuel + 1) i
                    dupes pjs =
                    (pjs,
                     dedupeAbortOps cfg jbs (pjs[prev]?.getD pj) ++
                       [Op.replace (pjs[prev]?.getD pj).metadata.name
                         (markAborted now (pjs[prev]?.getD pj)) false],
                     some (.replaceFailed
                       (pjs[prev]?.getD pj).metadata.name)) := by
                  simp [terminateDupesGo, hpi, hel, hlk, hnew, hskip, hrep']
                rw [hstep] at h ⊢
                dsimp only at h ⊢
                rcases List.mem_append.mp h with habort | hco
                · exact absurd habort (dedupeAbortOps_no_replace cfg jbs _
                    nm v false)
                · rcases List.mem_cons.mp hco with heq | hnil
                  · injection heq with h1 _ _
                    rw [h1]
                  · simp at hnil
          · -- the current record is not newer: `i` is the cancel target
            by_cases hskip : dedupeSkip cfg jbs pj = true
            · have hstep : terminateDupesGo cfg kc jbs now (fuel + 1) i dupes
                  pjs =
                  terminateDupesGo cfg kc jbs now fuel (i + 1) dupes pjs := by
                simp [terminateDupesGo, hpi, hel, hlk, hnew, hskip]
              rw [hstep] at h ⊢
              exact ih _ _ _ _ _ h
            · by_cases hrep : kc.replaceOk pj.metadata.name = true
              · have hstep : terminateDupesGo cfg kc jbs now (fuel + 1) i
                    dupes pjs =
                    ((terminateDupesGo cfg kc jbs now fuel (i + 1) dupes
                        (pjs.set i (markAborted now pj))).1,
                     dedupeAbortOps cfg jbs pj ++
                       Op.replace pj.metadata.name (markAborted now pj) true ::
                         (terminateDupesGo cfg kc jbs now fuel (i + 1) dupes
                           (pjs.set i (markAborted now pj))).2.1,
                     (terminateDupesGo cfg kc jbs now fuel (i + 1) dupes
                       (pjs.set i (markAborted now pj))).2.2) := by
                  simp [terminateDupesGo, hpi, hel, hlk, hnew, hskip, hrep]
                rw [hstep] at h ⊢
                dsimp only at h ⊢
                rcases List.mem_append.mp h with habort | hco
                · exact absurd habort (dedupeAbortOps_no_replace cfg jbs _
                    nm v false)
                · rcases List.mem_cons.mp hco with heq | hrest
                  · simp at heq
                  · exact ih _ _ _ _ _ hrest
              · have hrep' : kc.replaceOk pj.metadata.name = false := by
                  cases hx : kc.replaceOk pj.metadata.name
                  · rfl
                  · exact absurd hx hrep
                have hstep : terminateDupesGo cfg kc jbs now (fuel + 1) i
                    dupes pjs =
                    (pjs,
                     dedupeAbortOps cfg jbs pj ++
                       [Op.replace pj.metadata.name (markAborted now pj) false],
                     some (.replaceFailed pj.metadata.name)) := by
                  simp [terminateDupesGo, hpi, hel, hlk, hnew, hskip, hrep']
                rw [hstep] at h ⊢
                dsimp only at h ⊢
                rcases List.mem_append.mp h with habort | hco
                · exact absurd habort (dedupeAbortOps_no_replace cfg jbs _
                    nm v false)
                · rcases List.mem_cons.mp hco with heq | hnil
                  · injection heq with h1 _ _
                    rw [h1]
                  · simp at hnil
      · have hel' : dedupeEligible pj = false := by
          cases hx : dedupeEligible pj
          · rfl
          · exact absurd hx hel
        have hstep : terminateDupesGo cfg kc jbs now (fuel + 1) i dupes pjs =
            terminateDupesGo cfg kc jbs now fuel (i + 1) dupes pjs := by
          simp [terminateDupesGo, hpi, hel']
        rw [hstep] at h ⊢
        exact ih _ _ _ _ _ h

/-- C3 (amended): among the non-complete presubmit records sharing a dedupe
key, the record against which every other record of the group either started
strictly earlier, or started at the same time and appears later in the list
(that is: greatest start time, tie broken towards the earlier-seen index),
survives the dedupe pass unchanged. -/
theorem terminateDupes_survivor (cfg : Config) (kc : KubeOracle)
    (jbs : BuildMap) (now : Nat) (pjs : List ProwJob) (w : Nat) (pw : ProwJob)
    (hwin : dedupeWinner pjs w pw) :
    (terminateDupes cfg kc jbs now pjs).1[w]? = some pw :=
  terminateDupesGo_winner cfg kc jbs now pjs.length 0 [] pjs w pw
    (dupesValid_nil pjs) hwin

/-- Witness for `terminateDupes_survivor`: of two presubmits with the same
key, the one with the later start time survives. -/
theorem terminateDupes_survivor_witness :
    (terminateDupes cfgPlain kcOK [] 99 [pjOld, pjNew]).1[1]? = some pjNew := by
  apply terminateDupes_survivor
  refine ⟨rfl, by decide, ?_⟩
  intro j pj hX hel hkey hjw
  match j with
  | 0 =>
    have hpj : pj = pjOld := by
      have : some pjOld = some pj := hX
      injection this with h
      exact h.symm
    subst hpj
    left
    decide
  | 1 => exact absurd rfl hjw
  | (n + 2) => exact Option.noConfusion hX

/-- C3 (counterexample): the claim's tie-break is wrong.  Two eligible
presubmit records share a key and an identical start time; the claim says the
later-seen one (index 1) survives, but the code cancels index 1 — its
`StartTime.Before` comparison is strict, so an equal start time keeps the
earlier-seen index as the survivor. -/
theorem terminateDupes_tie_cex :
    pjTieA.status.startTime = pjTieB.status.startTime ∧
    dedupeKey pjTieA = dedupeKey pjTieB ∧
    dedupeEligible pjTieA = true ∧ dedupeEligible pjTieB = true ∧
    (terminateDupes cfgPlain kcOK [] 99 [pjTieA, pjTieB]).1[0]? =
      some pjTieA ∧
    ((terminateDupes cfgPlain kcOK [] 99 [pjTieA, pjTieB]).1[1]?).map
      (fun r => r.status.state) = some ProwJobState.aborted ∧
    pjTieB.status.state = ProwJobState.triggered :=
  ⟨rfl, rfl, rfl, rfl, rfl, rfl, rfl⟩

/-- C4 (amended): every record the dedupe pass modifies is set to exactly its
aborted version (state aborted, completion time now) and a successful Replace
recording that version is made for it; an Abort call is made only when
cancellations are allowed, for a non-complete record whose build exists and
is not enqueued; and a Replace failure aborts the dedupe pass with that
error, in both directions: any error the pass ends with is a Replace failure
for a record the store rejects, and any failed Replace call the pass makes
surfaces as the pass's error, bearing that record's name.  (The claim's
"regardless" clause fails: a loser whose build is enqueued under
AllowCancellations is skipped entirely, see the counterexample.) -/
theorem terminateDupes_loser_handling (cfg : Config) (kc : KubeOracle)
    (jbs : BuildMap) (now : Nat) (pjs : List ProwJob) :
    (∀ (j : Nat) (pjO pjF : ProwJob), pjs[j]? = some pjO →
        (terminateDupes cfg kc jbs now pjs).1[j]? = some pjF → pjF ≠ pjO →
        pjF = markAborted now pjO ∧ pjF.status.state = .aborted ∧
        pjF.status.completionTime = some now ∧
        Op.replace pjO.metadata.name pjF true ∈
          (terminateDupes cfg kc jbs now pjs).2.1) ∧
    (∀ op ∈ (terminateDupes cfg kc jbs now pjs).2.1,
      ∀ jobName bn, op = Op.abort jobName bn →
        cfg.allowCancellations = true ∧
        ∃ (jx : Nat) (pjO : ProwJob) (b : JenkinsBuild),
          pjs[jx]? = some pjO ∧ pjO.Complete = false ∧
          lookupBuild jbs pjO.metadata.name = some b ∧
          b.isEnqueued = false ∧ jobName = pjO.spec.job ∧ bn = b.number) ∧
    (∀ e, (terminateDupes cfg kc jbs now pjs).2.2 = some e →
      ∃ nm, e = Err.replaceFailed nm ∧ kc.replaceOk nm = false) ∧
    (∀ (nm : String) (v : ProwJob),
      Op.replace nm v false ∈ (terminateDupes cfg kc jbs now pjs).2.1 →
      (terminateDupes cfg kc jbs now pjs).2.2 =
        some (Err.replaceFailed nm)) := by
  obtain ⟨hch, hops, herr⟩ := terminateDupes_sound cfg kc jbs now pjs
  refine ⟨?_, ?_, herr, ?_⟩
  · intro j pjO pjF hO hF hne
    rcases hch j with h | ⟨pjX, hX, hXel, hres, hmem⟩
    · rw [hO] at h
      rw [hF] at h
      injection h with h
      exact absurd h hne
    · rw [hO] at hX
      injection hX with hX
      subst hX
      rw [hF] at hres
      injection hres with hres
      subst hres
      exact ⟨rfl, rfl, rfl, hmem⟩
  · intro op hop jobName bn heq
    obtain ⟨jx, pjX, hX, hXel, habort | hrepl⟩ := hops op hop
    · rw [heq] at habort
      exact Op.noConfusion habort
    · obtain ⟨b, hop', hac, hlb, hbe⟩ := hrepl
      rw [heq] at hop'
      injection hop' with h1 h2
      have hcompl : pjX.Complete = false := by
        simp [dedupeEligible] at hXel
        exact hXel.1
      exact ⟨hac, jx, pjX, b, hX, hcompl, hlb, hbe, h1, h2⟩
  · intro nm v hmem
    exact terminateDupesGo_fail_err cfg kc jbs now pjs.length 0 [] pjs nm v
      hmem

/-- Witness for `terminateDupes_loser_handling`: deduping two records with
the same key aborts and persists the superseded one, and with a store that
rejects the Replace, the failed Replace call surfaces as the pass error. -/
theorem terminateDupes_loser_handling_witness :
    (markAborted 99 pjOld = markAborted 99 pjOld ∧
     (markAborted 99 pjOld).status.state = .aborted ∧
     (markAborted 99 pjOld).status.completionTime = some 99 ∧
     Op.replace pjOld.metadata.name (markAborted 99 pjOld) true ∈
       (terminateDupes cfgPlain kcOK [] 99 [pjNew, pjOld]).2.1) ∧
    (terminateDupes cfgPlain kcNoReplace [] 99 [pjNew, pjOld]).2.2 =
      some (Err.replaceFailed "b") :=
  ⟨(terminateDupes_loser_handling cfgPlain kcOK [] 99 [pjNew, pjOld]).1 1
      pjOld (markAborted 99 pjOld) rfl rfl
      (fun h => Option.noConfusion
        (congrArg (fun r => r.status.completionTime) h)),
   (terminateDupes_loser_handling cfgPlain kcNoReplace [] 99
      [pjNew, pjOld]).2.2.2 "b" (markAborted 99 pjOld) (List.Mem.head _)⟩

/-- C4 (counterexample): with `AllowCancellations` on and the loser's build
enqueued, the deduper skips the loser entirely: its status is not set, no
Replace is made and no Abort is attempted — contradicting the claim that
every loser is marked aborted and persisted regardless of the abort. -/
theorem terminateDupes_enqueued_loser_cex :
    dedupeKey pjOld = dedupeKey pjNew ∧
    pjOld.status.startTime < pjNew.status.startTime ∧
    dedupeEligible pjOld = true ∧
    cfgCancel.allowCancellations = true ∧
    (lookupBuild jbsEnqB pjOld.metadata.name).map JenkinsBuild.isEnqueued =
      some true ∧
    terminateDupes cfgCancel kcOK jbsEnqB 99 [pjNew, pjOld] =
      ([pjNew, pjOld], [], none) :=
  ⟨rfl, by decide, rfl, rfl, rfl, rfl⟩

/-- C10: the deduper's key and the follow-up admission's PR number read
`spec.refs.pulls[0]`.  The access is in bounds exactly when the pull list is
non-empty: then the partial readings are defined and agree with the
totalised ones the model uses; an empty pull list makes both reads
out of bounds (`none`, where the Go code would panic). -/
theorem pulls_access_safety (pj : ProwJob) :
    (pj.spec.refs.pulls ≠ [] →
      (firstPullNumber? pj).isSome = true ∧ (dedupeKey? pj).isSome = true ∧
      firstPullNumber? pj = some (firstPull pj).number ∧
      dedupeKey? pj = some (dedupeKey pj)) ∧
    (pj.spec.refs.pulls = [] →
      firstPullNumber? pj = none ∧ dedupeKey? pj = none) := by
  constructor
  · intro h
    cases hp : pj.spec.refs.pulls with
    | nil => exact absurd hp h
    | cons p rest =>
      refine ⟨?_, ?_, ?_, ?_⟩ <;>
        simp [firstPullNumber?, dedupeKey?, firstPull, dedupeKey, hp]
  · intro h
    constructor <;> simp [firstPullNumber?, dedupeKey?, h]

/-- Witness for `pulls_access_safety`: a presubmit with one pull. -/
theorem pulls_access_safety_witness :
    (firstPullNumber? pjOld).isSome = true ∧
    (dedupeKey? pjOld).isSome = true ∧
    firstPullNumber? pjOld = some (firstPull pjOld).number ∧
    dedupeKey? pjOld = some (dedupeKey pjOld) :=
  (pulls_access_safety pjOld).1 (by decide)

/-- C8: a pending record with no matching build snapshot is marked
completion_time = now, state = error, url = the fallback support URL, with
the "Error finding Jenkins job." description; exactly one report carrying
that updated record is emitted, the counter is untouched, and the update is
persisted via Replace. -/
theorem syncPendingJob_missing_build (cfg : Config) (kc : KubeOracle)
    (gh : GithubOracle) (now : Nat) (jbs : BuildMap) (pj : ProwJob)
    (m : CountMap) (hmiss : lookupBuild jbs pj.metadata.name = none) :
    (markMissingBuild now pj).status.completionTime = some now ∧
    (markMissingBuild now pj).status.state = .error ∧
    (markMissingBuild now pj).status.url = testInfra ∧
    (markMissingBuild now pj).status.description =
      "Error finding Jenkins job." ∧
    (syncPendingJob cfg kc gh now jbs pj m).reports =
      [markMissingBuild now pj] ∧
    (syncPendingJob cfg kc gh now jbs pj m).ops =
      [Op.replace pj.metadata.name (markMissingBuild now pj)
        (kc.replaceOk pj.metadata.name)] ∧
    (syncPendingJob cfg kc gh now jbs pj m).pendingJobs = m ∧
    (kc.replaceOk pj.metadata.name = true →
      (syncPendingJob cfg kc gh now jbs pj m).final =
        markMissingBuild now pj) := by
  refine ⟨rfl, rfl, rfl, rfl, ?_, ?_, ?_, ?_⟩ <;>
    simp [syncPendingJob, hmiss, reportAndReplace, markMissingBuild]
  intro h
  simp [h]

/-- Witness for `syncPendingJob_missing_build`. -/
theorem syncPendingJob_missing_build_witness :
    (syncPendingJob cfgPlain kcOK ghOK 50 [] pjParent []).reports =
      [markMissingBuild 50 pjParent] ∧
    (syncPendingJob cfgPlain kcOK ghOK 50 [] pjParent []).final =
      markMissingBuild 50 pjParent :=
  ⟨(syncPendingJob_missing_build cfgPlain kcOK ghOK 50 [] pjParent []
      rfl).2.2.2.2.1,
   (syncPendingJob_missing_build cfgPlain kcOK ghOK 50 [] pjParent []
      rfl).2.2.2.2.2.2.2 rfl⟩

theorem createChildren_cons_skip {cfg : Config} {kc : KubeOracle}
    {gh : GithubOracle} {parent : ProwJob} {nj : ProwJobSpec}
    (l : List ProwJobSpec)
    (hcan : ¬ RunAfterSuccessCanRun cfg gh parent
      (NewProwJob nj parent.metadata.labels) = true) :
    createChildren cfg kc gh parent (nj :: l) =
      createChildren cfg kc gh parent l := by
  simp [createChildren, hcan]

theorem createChildren_cons_ok {cfg : Config} {kc : KubeOracle}
    {gh : GithubOracle} {parent : ProwJob} {nj : ProwJobSpec}
    (l : List ProwJobSpec)
    (hcan : RunAfterSuccessCanRun cfg gh parent
      (NewProwJob nj parent.metadata.labels) = true)
    (hok : kc.createOk nj = true) :
    createChildren cfg kc gh parent (nj :: l) =
      (Op.create nj parent.metadata.labels true ::
        (createChildren cfg kc gh parent l).1,
       (createChildren cfg kc gh parent l).2) := by
  simp [createChildren, hcan, hok]

theorem createChildren_cons_fail {cfg : Config} {kc : KubeOracle}
    {gh : GithubOracle} {parent : ProwJob} {nj : ProwJobSpec}
    (l : List ProwJobSpec)
    (hcan : RunAfterSuccessCanRun cfg gh parent
      (NewProwJob nj parent.metadata.labels) = true)
    (hok : kc.createOk nj = false) :
    createChildren cfg kc gh parent (nj :: l) =
      ([Op.create nj parent.metadata.labels false],
       some (.createFailed nj.job)) := by
  simp [createChildren, hcan, hok]

/-- C5: in the pending driver's success branch, a failed child create
short-circuits: the driver returns the error immediately, the parent is
neither reported nor persisted (its store version stays untouched, the ops
are exactly the create calls made so far), and children after the failed one
are never attempted (appending further children to a failing prefix changes
nothing). -/
theorem syncPendingJob_child_create_short_circuit :
    (∀ (cfg : Config) (kc : KubeOracle) (gh : GithubOracle) (now : Nat)
        (jbs : BuildMap) (pj : ProwJob) (m : CountMap) (jb : JenkinsBuild)
        (cOps : List Op) (e : Err),
      lookupBuild jbs pj.metadata.name = some jb →
      jb.isEnqueued = false → jb.isRunning = false → jb.isSuccess = true →
      createChildren cfg kc gh (markSucceeded now pj)
          pj.spec.runAfterSuccess = (cOps, some e) →
      syncPendingJob cfg kc gh now jbs pj m =
        { pendingJobs := m, reports := [], ops := cOps, err := some e,
          final := pj }) ∧
    (∀ (cfg : Config) (kc : KubeOracle) (gh : GithubOracle)
        (parent : ProwJob) (xs ys : List ProwJobSpec) (cOps : List Op)
        (e : Err),
      createChildren cfg kc gh parent xs = (cOps, some e) →
      createChildren cfg kc gh parent (xs ++ ys) = (cOps, some e)) := by
  constructor
  · intro cfg kc gh now jbs pj m jb cOps e hlb henq hrun hsucc hcc
    simp [syncPendingJob, hlb, henq, hrun, hsucc, hcc]
  · intro cfg kc gh parent xs
    induction xs with
    | nil =>
      intro ys cOps e h
      simp [createChildren] at h
    | cons nj rest ih =>
      intro ys cOps e h
      by_cases hcan :
          RunAfterSuccessCanRun cfg gh parent
            (NewProwJob nj parent.metadata.labels) = true
      · by_cases hok : kc.createOk nj = true
        · rw [createChildren_cons_ok rest hcan hok] at h
          rcases hr : createChildren cfg kc gh parent rest with ⟨ops1, err1⟩
          rw [hr] at h
          dsimp only at h
          injection h with hops herr
          rw [List.cons_append, createChildren_cons_ok (rest ++ ys) hcan hok,
            ih ys ops1 e (by rw [hr, herr])]
          dsimp only
          rw [← hops]
        · have hok' : kc.createOk nj = false := by
            cases hh : kc.createOk nj
            · rfl
            · exact absurd hh hok
          rw [createChildren_cons_fail rest hcan hok'] at h
          rw [List.cons_append, createChildren_cons_fail (rest ++ ys) hcan
            hok']
          exact h
      · rw [createChildren_cons_skip rest hcan] at h
        rw [List.cons_append, createChildren_cons_skip (rest ++ ys) hcan]
        exact ih ys cOps e h

/-- Witness for `syncPendingJob_child_create_short_circuit`: a pending parent
whose single child fails to create is left unpersisted and unreported. -/
theorem syncPendingJob_child_create_short_circuit_witness :
    syncPendingJob cfgPlain kcNoCreate ghOK 50 jbsPar pjParent [] =
      { pendingJobs := [], reports := [],
        ops := [Op.create childSpec [] false],
        err := some (.createFailed "child"), final := pjParent } :=
  syncPendingJob_child_create_short_circuit.1 cfgPlain kcNoCreate ghOK 50
    jbsPar pjParent [] successBuild [Op.create childSpec [] false]
    (.createFailed "child") rfl rfl rfl rfl rfl

/-- Every call recorded by the child-create loop is a create. -/
theorem createChildren_ops_create (cfg : Config) (kc : KubeOracle)
    (gh : GithubOracle) (parent : ProwJob) (l : List ProwJobSpec) :
    ∀ op ∈ (createChildren cfg kc gh parent l).1,
      opRecordName op = none := by
  induction l with
  | nil => intro op hop; simp [createChildren] at hop
  | cons nj rest ih =>
    intro op hop
    by_cases hcan :
        RunAfterSuccessCanRun cfg gh parent
          (NewProwJob nj parent.metadata.labels) = true
    · by_cases hok : kc.createOk nj = true
      · rw [createChildren_cons_ok rest hcan hok] at hop
        rcases List.mem_cons.mp hop with rfl | hop'
        · rfl
        · exact ih op hop'
      · have hok' : kc.createOk nj = false := by
          cases hh : kc.createOk nj
          · rfl
          · exact absurd hh hok
        rw [createChildren_cons_fail rest hcan hok'] at hop
        rcases List.mem_singleton.mp hop with rfl
        rfl
    · rw [createChildren_cons_skip rest hcan] at hop
      exact ih op hop

theorem reportAndReplace_spec (kc : KubeOracle) (m : CountMap)
    (ops0 : List Op) (orig pj' : ProwJob) :
    (reportAndReplace kc m ops0 orig pj').pendingJobs = m ∧
    (reportAndReplace kc m ops0 orig pj').reports = [pj'] ∧
    (reportAndReplace kc m ops0 orig pj').ops =
      ops0 ++ [Op.replace pj'.metadata.name pj'
        (kc.replaceOk pj'.metadata.name)] ∧
    ((kc.replaceOk pj'.metadata.name = true ∧
        (reportAndReplace kc m ops0 orig pj').final = pj' ∧
        (reportAndReplace kc m ops0 orig pj').err = none) ∨
     (kc.replaceOk pj'.metadata.name = false ∧
        (reportAndReplace kc m ops0 orig pj').final = orig ∧
        (reportAndReplace kc m ops0 orig pj').err =
          some (.replaceFailed pj'.metadata.name))) := by
  cases hok : kc.replaceOk pj'.metadata.name <;>
    simp [reportAndReplace, hok]

theorem resolveURL_metadata (cfg : Config) (jb : JenkinsBuild)
    (pj : ProwJob) : (resolveURL cfg jb pj).metadata = pj.metadata := rfl

theorem resolveURL_state (cfg : Config) (jb : JenkinsBuild) (pj : ProwJob) :
    (resolveURL cfg jb pj).status.state = pj.status.state := rfl

theorem reportAndReplace_names (kc : KubeOracle) (m : CountMap)
    (ops0 : List Op) (orig pj' : ProwJob)
    (hops0 : ∀ op ∈ ops0, opRecordName op = some orig.metadata.name ∨
      opRecordName op = none)
    (hmeta : pj'.metadata = orig.metadata) :
    (∀ r ∈ (reportAndReplace kc m ops0 orig pj').reports,
       r.metadata = orig.metadata) ∧
    (∀ op ∈ (reportAndReplace kc m ops0 orig pj').ops,
       opRecordName op = some orig.metadata.name ∨ opRecordName op = none) ∧
    (reportAndReplace kc m ops0 orig pj').final.metadata = orig.metadata := by
  obtain ⟨hm, hr, ho, hf⟩ := reportAndReplace_spec kc m ops0 orig pj'
  refine ⟨?_, ?_, ?_⟩
  · intro r hrr
    rw [hr] at hrr
    rcases List.mem_singleton.mp hrr with rfl
    exact hmeta
  · intro op hop
    rw [ho] at hop
    rcases List.mem_append.mp hop with h | h
    · exact hops0 op h
    · rcases List.mem_singleton.mp h with rfl
      left
      simp [opRecordName, hmeta]
  · rcases hf with ⟨_, hfin, _⟩ | ⟨_, hfin, _⟩
    · rw [hfin]; exact hmeta
    · rw [hfin]

/-- The pending driver only reports and persists status updates of its own
record: every report and every named call carries the record's metadata, and
the end-of-tick version keeps it. -/
theorem syncPendingJob_names (cfg : Config) (kc : KubeOracle)
    (gh : GithubOracle) (now : Nat) (jbs : BuildMap) (pj : ProwJob)
    (m : CountMap) :
    (∀ r ∈ (syncPendingJob cfg kc gh now jbs pj m).reports,
       r.metadata = pj.metadata) ∧
    (∀ op ∈ (syncPendingJob cfg kc gh now jbs pj m).ops,
       opRecordName op = some pj.metadata.name ∨ opRecordName op = none) ∧
    (syncPendingJob cfg kc gh now jbs pj m).final.metadata = pj.metadata := by
  cases hlb : lookupBuild jbs pj.metadata.name with
  | none =>
    simp only [syncPendingJob, hlb]
    exact reportAndReplace_names kc m [] pj (markMissingBuild now pj)
      (by intro op h; cases h) rfl
  | some jb =>
    simp only [syncPendingJob, hlb]
    split_ifs with h1 h2 h3 h4 h5
    · exact ⟨by simp, by simp, rfl⟩
    · exact ⟨by simp, by simp, rfl⟩
    · exact reportAndReplace_names kc _ [] pj _ (by intro op h; cases h) rfl
    · cases hcc : (createChildren cfg kc gh (markSucceeded now pj)
          pj.spec.runAfterSuccess).2 with
      | some e =>
        simp only [hcc]
        refine ⟨?_, ?_, ?_⟩
        · simp
        · intro op hop
          exact Or.inr
            (createChildren_ops_create cfg kc gh (markSucceeded now pj)
              pj.spec.runAfterSuccess op hop)
        · trivial
      | none =>
        simp only [hcc]
        exact reportAndReplace_names kc _ _ pj _
          (fun op hop => Or.inr
            (createChildren_ops_create cfg kc gh (markSucceeded now pj)
              pj.spec.runAfterSuccess op hop)) rfl
    · exact reportAndReplace_names kc _ [] pj _ (by intro op h; cases h) rfl
    · exact reportAndReplace_names kc _ [] pj _ (by intro op h; cases h) rfl
    · exact reportAndReplace_names kc _ [] pj _ (by intro op h; cases h) rfl

/-- The non-pending driver only reports and persists status updates of its
own record. -/
theorem syncNonPendingJob_names (cfg : Config) (kc : KubeOracle)
    (jc : JenkinsOracle) (now : Nat) (jbs : BuildMap) (pj : ProwJob)
    (m : CountMap) :
    (∀ r ∈ (syncNonPendingJob cfg kc jc now jbs pj m).reports,
       r.metadata = pj.metadata) ∧
    (∀ op ∈ (syncNonPendingJob cfg kc jc now jbs pj m).ops,
       opRecordName op = some pj.metadata.name ∨ opRecordName op = none) ∧
    (syncNonPendingJob cfg kc jc now jbs pj m).final.metadata =
      pj.metadata := by
  by_cases hc : pj.Complete = true
  · simp only [syncNonPendingJob, hc]
    exact ⟨by simp, by simp, rfl⟩
  · have hc' : pj.Complete = false := by
      cases hh : pj.Complete
      · rfl
      · exact absurd hh hc
    cases hlb : lookupBuild jbs pj.metadata.name with
    | none =>
      cases hadm : (canExecuteConcurrently cfg m pj).1 with
      | false =>
        simp only [syncNonPendingJob, hc', hlb, hadm]
        exact ⟨by simp, by simp, rfl⟩
      | true =>
        simp only [syncNonPendingJob, hc', hlb, hadm]
        cases hsub : jc.buildOk pj.metadata.name <;>
          exact reportAndReplace_names kc _ _ pj _
            (by intro op h; rcases List.mem_singleton.mp h with rfl;
                left; rfl) rfl
    | some jb =>
      simp only [syncNonPendingJob, hc', hlb]
      exact reportAndReplace_names kc _ [] pj _ (by intro op h; cases h) rfl

theorem countNamed_append (x : String) (a b : List ProwJob) :
    countNamed x (a ++ b) = countNamed x a + countNamed x b := by
  simp [countNamed, List.filter_append]

theorem countNamed_zero (x : String) (rs : List ProwJob)
    (h : ∀ r ∈ rs, r.metadata.name ≠ x) : countNamed x rs = 0 := by
  simp only [countNamed, List.length_eq_zero]
  rw [List.filter_eq_nil]
  intro r hr
  simp [h r hr]

theorem sumCounts_incrCount (m : CountMap) (j : String) :
    sumCounts (incrCount m j) = sumCounts m + 1 := by
  induction m with
  | nil => simp [incrCount, sumCounts]
  | cons hd tl ih =>
    obtain ⟨k, v⟩ := hd
    by_cases hk : k = j <;> simp [incrCount, hk, sumCounts] <;>
      simp [sumCounts] at ih <;> omega

/-- With an always-succeeding create oracle the child loop never errors. -/
theorem createChildren_ok (cfg : Config) (kc : KubeOracle) (gh : GithubOracle)
    (parent : ProwJob) (l : List ProwJobSpec)
    (hcreate : ∀ s, kc.createOk s = true) :
    (createChildren cfg kc gh parent l).2 = none := by
  induction l with
  | nil => simp [createChildren]
  | cons nj rest ih =>
    by_cases hcan :
        RunAfterSuccessCanRun cfg gh parent
          (NewProwJob nj parent.metadata.labels) = true
    · rw [createChildren_cons_ok rest hcan (hcreate nj)]
      exact ih
    · rw [createChildren_cons_skip rest hcan]
      exact ih

theorem syncNonPendingJob_complete (cfg : Config) (kc : KubeOracle)
    (jc : JenkinsOracle) (now : Nat) (jbs : BuildMap) (pj : ProwJob)
    (m : CountMap) (hc : pj.Complete = true) :
    syncNonPendingJob cfg kc jc now jbs pj m =
      { pendingJobs := m, reports := [], ops := [], err := none,
        final := pj } := by
  simp [syncNonPendingJob, hc]

theorem reportAndReplace_transition (kc : KubeOracle) (m : CountMap)
    (ops0 : List Op) (orig pj' : ProwJob)
    (h : (reportAndReplace kc m ops0 orig pj').final.status.state ≠
      orig.status.state) :
    (reportAndReplace kc m ops0 orig pj').reports =
      [(reportAndReplace kc m ops0 orig pj').final] := by
  obtain ⟨_, hr, _, hf⟩ := reportAndReplace_spec kc m ops0 orig pj'
  rcases hf with ⟨_, hfin, _⟩ | ⟨_, hfin, _⟩
  · rw [hr, hfin]
  · rw [hfin] at h
    exact absurd rfl h

/-- A pending-driver step whose end-of-tick state differs from the record's
state emitted exactly that final version as its one report. -/
theorem syncPendingJob_transition (cfg : Config) (kc : KubeOracle)
    (gh : GithubOracle) (now : Nat) (jbs : BuildMap) (pj : ProwJob)
    (m : CountMap)
    (hch : (syncPendingJob cfg kc gh now jbs pj m).final.status.state ≠
      pj.status.state) :
    (syncPendingJob cfg kc gh now jbs pj m).reports =
      [(syncPendingJob cfg kc gh now jbs pj m).final] := by
  cases hlb : lookupBuild jbs pj.metadata.name with
  | none =>
    simp only [syncPendingJob, hlb] at hch ⊢
    exact reportAndReplace_transition kc m [] pj _ hch
  | some jb =>
    simp only [syncPendingJob, hlb] at hch ⊢
    split_ifs at hch ⊢ with h1 h2 h3 h4 h5
    · exact absurd rfl hch
    · exact absurd rfl hch
    · exact reportAndReplace_transition kc _ [] pj _ hch
    · cases hcc : (createChildren cfg kc gh (markSucceeded now pj)
          pj.spec.runAfterSuccess).2 with
      | some e =>
        simp only [hcc] at hch ⊢
        exact absurd rfl hch
      | none =>
        simp only [hcc] at hch ⊢
        exact reportAndReplace_transition kc _ _ pj _ hch
    · exact reportAndReplace_transition kc _ [] pj _ hch
    · exact reportAndReplace_transition kc _ [] pj _ hch
    · exact reportAndReplace_transition kc _ [] pj _ hch

/-- A non-pending-driver step whose end-of-tick state differs from the
record's state emitted exactly that final version as its one report. -/
theorem syncNonPendingJob_transition (cfg : Config) (kc : KubeOracle)
    (jc : JenkinsOracle) (now : Nat) (jbs : BuildMap) (pj : ProwJob)
    (m : CountMap)
    (hch : (syncNonPendingJob cfg kc jc now jbs pj m).final.status.state ≠
      pj.status.state) :
    (syncNonPendingJob cfg kc jc now jbs pj m).reports =
      [(syncNonPendingJob cfg kc jc now jbs pj m).final] := by
  by_cases hc : pj.Complete = true
  · rw [syncNonPendingJob_complete cfg kc jc now jbs pj m hc] at hch
    exact absurd rfl hch
  · have hc' : pj.Complete = false := by
      cases hh : pj.Complete
      · rfl
      · exact absurd hh hc
    cases hlb : lookupBuild jbs pj.metadata.name with
    | none =>
      cases hadm : (canExecuteConcurrently cfg m pj).1 with
      | false =>
        simp only [syncNonPendingJob, hc', hlb, hadm] at hch ⊢
        exact absurd rfl hch
      | true =>
        simp only [syncNonPendingJob, hc', hlb, hadm] at hch ⊢
        exact reportAndReplace_transition kc _ _ pj _ hch
    | some jb =>
      simp only [syncNonPendingJob, hc', hlb] at hch ⊢
      exact reportAndReplace_transition kc _ [] pj _ hch

/-- Counting shape of a pending-driver step: it increments
`pendingJobs[spec.job]` exactly when the record's store version is still
pending at the end of the tick (given successful oracles, a well-covered
build predicate set, and a record that is pending going in). -/
theorem syncPendingJob_count (cfg : Config) (kc : KubeOracle)
    (gh : GithubOracle) (now : Nat) (jbs : BuildMap) (pj : ProwJob)
    (m : CountMap) (hst : pj.status.state = .pending)
    (hrep : ∀ s, kc.replaceOk s = true)
    (hcreate : ∀ s, kc.createOk s = true)
    (htotal : ∀ jb, lookupBuild jbs pj.metadata.name = some jb →
      BuildTotal jb) :
    ((syncPendingJob cfg kc gh now jbs pj m).pendingJobs =
        incrCount m pj.spec.job ∧
      isPendingRecord (syncPendingJob cfg kc gh now jbs pj m).final = true) ∨
    ((syncPendingJob cfg kc gh now jbs pj m).pendingJobs = m ∧
      isPendingRecord (syncPendingJob cfg kc gh now jbs pj m).final =
        false) := by
  cases hlb : lookupBuild jbs pj.metadata.name with
  | none =>
    right
    simp only [syncPendingJob, hlb]
    obtain ⟨hm, _, _, hf⟩ :=
      reportAndReplace_spec kc m [] pj (markMissingBuild now pj)
    rcases hf with ⟨_, hfin, _⟩ | ⟨hko, _, _⟩
    · exact ⟨hm, by rw [hfin]; rfl⟩
    · rw [hrep _] at hko
      exact absurd hko (by simp)
  | some jb =>
    simp only [syncPendingJob, finishPendingJob, hlb]
    split_ifs with h1 h2 h3 h4 h5
    · left
      exact ⟨rfl, by simp [isPendingRecord, hst]⟩
    · left
      exact ⟨rfl, by simp [isPendingRecord, hst]⟩
    · left
      obtain ⟨hm, _, _, hf⟩ := reportAndReplace_spec kc
        (incrementNumPendingJobs m pj.spec.job) []
        pj (resolveURL cfg jb
          { pj with status := { pj.status with
              description := "Jenkins job running." } })
      rcases hf with ⟨_, hfin, _⟩ | ⟨hko, _, _⟩
      · refine ⟨hm, ?_⟩
        rw [hfin]
        simp [isPendingRecord, resolveURL, hst]
      · rw [hrep _] at hko
        exact absurd hko (by simp)
    · rw [createChildren_ok cfg kc gh (markSucceeded now pj)
        pj.spec.runAfterSuccess hcreate]
      right
      obtain ⟨hm, _, _, hf⟩ := reportAndReplace_spec kc m
        (createChildren cfg kc gh (markSucceeded now pj)
          pj.spec.runAfterSuccess).1
        pj (resolveURL cfg jb (markSucceeded now pj))
      rcases hf with ⟨_, hfin, _⟩ | ⟨hko, _, _⟩
      · refine ⟨hm, ?_⟩
        rw [hfin]
        simp [isPendingRecord, resolveURL, markSucceeded]
      · rw [hrep _] at hko
        exact absurd hko (by simp)
    · right
      obtain ⟨hm, _, _, hf⟩ := reportAndReplace_spec kc m [] pj
        (resolveURL cfg jb
          { pj with status := { pj.status with
              completionTime := some now, state := .failure,
              description := "Jenkins job failed." } })
      rcases hf with ⟨_, hfin, _⟩ | ⟨hko, _, _⟩
      · refine ⟨hm, ?_⟩
        rw [hfin]
        simp [isPendingRecord, resolveURL]
      · rw [hrep _] at hko
        exact absurd hko (by simp)
    · right
      obtain ⟨hm, _, _, hf⟩ := reportAndReplace_spec kc m [] pj
        (resolveURL cfg jb
          { pj with status := { pj.status with
              completionTime := some now, state := .aborted,
              description := "Jenkins job aborted." } })
      rcases hf with ⟨_, hfin, _⟩ | ⟨hko, _, _⟩
      · refine ⟨hm, ?_⟩
        rw [hfin]
        simp [isPendingRecord, resolveURL]
      · rw [hrep _] at hko
        exact absurd hko (by simp)
    · rcases htotal jb hlb with h | h | h | h | h
      · exact absurd h h1
      · exact absurd h h2
      · exact absurd h h4
      · exact absurd h h5
      · simp_all

/-- Counting shape of a non-pending-driver step under the same oracles,
provided no such record has a pre-existing build: it increments
`pendingJobs[spec.job]` exactly when the record ends the tick pending. -/
theorem syncNonPendingJob_count (cfg : Config) (kc : KubeOracle)
    (jc : JenkinsOracle) (now : Nat) (jbs : BuildMap) (pj : ProwJob)
    (m : CountMap) (hst : pj.status.state ≠ .pending)
    (hrep : ∀ s, kc.replaceOk s = true)
    (hsub : ∀ s, jc.buildOk s = true)
    (hnb : pj.Complete = false → lookupBuild jbs pj.metadata.name = none) :
    ((syncNonPendingJob cfg kc jc now jbs pj m).pendingJobs =
        incrCount m pj.spec.job ∧
      isPendingRecord (syncNonPendingJob cfg kc jc now jbs pj m).final =
        true) ∨
    ((syncNonPendingJob cfg kc jc now jbs pj m).pendingJobs = m ∧
      isPendingRecord (syncNonPendingJob cfg kc jc now jbs pj m).final =
        false) := by
  by_cases hc : pj.Complete = true
  · right
    rw [syncNonPendingJob_complete cfg kc jc now jbs pj m hc]
    exact ⟨rfl, by simp [isPendingRecord, hst]⟩
  · have hc' : pj.Complete = false := by
      cases hh : pj.Complete
      · rfl
      · exact absurd hh hc
    obtain ⟨hadm, hincr, hsame⟩ :=
      canExecuteConcurrently_cases cfg m pj
    cases hdec : (canExecuteConcurrently cfg m pj).1 with
    | false =>
      right
      simp only [syncNonPendingJob, hc', hnb hc', hdec]
      exact ⟨hsame hdec, by simp [isPendingRecord, hst]⟩
    | true =>
      left
      have hstep : syncNonPendingJob cfg kc jc now jbs pj m =
          reportAndReplace kc (canExecuteConcurrently cfg m pj).2
            [Op.submit pj.metadata.name true] pj
            { pj with status := { pj.status with
                state := .pending,
                description := "Jenkins job enqueued." } } := by
        simp [syncNonPendingJob, hc', hnb hc', hdec, hsub]
      rw [hstep]
      obtain ⟨hm, _, _, hf⟩ := reportAndReplace_spec kc
        (canExecuteConcurrently cfg m pj).2
        [Op.submit pj.metadata.name true] pj
        { pj with status := { pj.status with
            state := .pending, description := "Jenkins job enqueued." } }
      rcases hf with ⟨_, hfin, _⟩ | ⟨hko, _, _⟩
      · refine ⟨?_, ?_⟩
        · rw [hm]
          exact hincr hdec
        · rw [hfin]
          simp [isPendingRecord]
      · rw [hrep _] at hko
        exact absurd hko (by simp)

theorem runPhase_count (f : ProwJob → CountMap → SyncStep) :
    ∀ (l : List ProwJob) (m : CountMap),
      (∀ pj ∈ l, ∀ m',
        ((f pj m').pendingJobs = incrCount m' pj.spec.job ∧
          isPendingRecord (f pj m').final = true) ∨
        ((f pj m').pendingJobs = m' ∧
          isPendingRecord (f pj m').final = false)) →
      sumCounts (runPhase f m l).pendingJobs =
        sumCounts m +
          ((runPhase f m l).finals.filter isPendingRecord).length := by
  intro l
  induction l with
  | nil => intro m _; simp [runPhase]
  | cons pj rest ih =>
    intro m hf
    have hrest := ih (f pj m).pendingJobs
      (fun q hq m' => hf q (List.mem_cons_of_mem _ hq) m')
    simp only [runPhase]
    rcases hf pj (List.mem_cons_self _ _) m with ⟨hm, hp⟩ | ⟨hm, hp⟩
    · rw [List.filter_cons_of_pos hp]
      simp only [List.length_cons]
      rw [hrest, hm, sumCounts_incrCount]
      omega
    · rw [List.filter_cons_of_neg (by simp [hp])]
      rw [hrest, hm]

theorem runPhase_finals_mem (f : ProwJob → CountMap → SyncStep) :
    ∀ (l : List ProwJob) (m : CountMap) (qf : ProwJob),
      qf ∈ (runPhase f m l).finals →
      ∃ pj, pj ∈ l ∧ ∃ m', qf = (f pj m').final := by
  intro l
  induction l with
  | nil => intro m qf h; simp [runPhase] at h
  | cons pj rest ih =>
    intro m qf h
    simp only [runPhase] at h
    rcases List.mem_cons.mp h with rfl | h'
    · exact ⟨pj, List.mem_cons_self _ _, m, rfl⟩
    · obtain ⟨q, hq, m', hq'⟩ := ih (f pj m).pendingJobs qf h'
      exact ⟨q, List.mem_cons_of_mem _ hq, m', hq'⟩

theorem runPhase_reports_mem (f : ProwJob → CountMap → SyncStep) :
    ∀ (l : List ProwJob) (m : CountMap) (r : ProwJob),
      r ∈ (runPhase f m l).reports →
      ∃ pj, pj ∈ l ∧ ∃ m', r ∈ (f pj m').reports := by
  intro l
  induction l with
  | nil => intro m r h; simp [runPhase] at h
  | cons pj rest ih =>
    intro m r h
    simp only [runPhase] at h
    rcases List.mem_append.mp h with h' | h'
    · exact ⟨pj, List.mem_cons_self _ _, m, h'⟩
    · obtain ⟨q, hq, m', hq'⟩ := ih (f pj m).pendingJobs r h'
      exact ⟨q, List.mem_cons_of_mem _ hq, m', hq'⟩

theorem runPhase_ops_mem (f : ProwJob → CountMap → SyncStep) :
    ∀ (l : List ProwJob) (m : CountMap) (op : Op),
      op ∈ (runPhase f m l).ops →
      ∃ pj, pj ∈ l ∧ ∃ m', op ∈ (f pj m').ops := by
  intro l
  induction l with
  | nil => intro m op h; simp [runPhase] at h
  | cons pj rest ih =>
    intro m op h
    simp only [runPhase] at h
    rcases List.mem_append.mp h with h' | h'
    · exact ⟨pj, List.mem_cons_self _ _, m, h'⟩
    · obtain ⟨q, hq, m', hq'⟩ := ih (f pj m).pendingJobs op h'
      exact ⟨q, List.mem_cons_of_mem _ hq, m', hq'⟩

theorem runPhase_named (f : ProwJob → CountMap → SyncStep)
    (hname : ∀ pj m', ∀ r ∈ (f pj m').reports,
      r.metadata.name = pj.metadata.name)
    (hfname : ∀ pj m', (f pj m').final.metadata.name = pj.metadata.name) :
    ∀ (l : List ProwJob) (m : CountMap) (pj : ProwJob),
      (recordNames l).Nodup → pj ∈ l →
      ∃ m', (f pj m').final ∈ (runPhase f m l).finals ∧
        (∀ qf ∈ (runPhase f m l).finals,
          qf.metadata.name = pj.metadata.name → qf = (f pj m').final) ∧
        countNamed pj.metadata.name (runPhase f m l).reports =
          countNamed pj.metadata.name (f pj m').reports := by
  intro l
  induction l with
  | nil => intro m pj _ h; cases h
  | cons q rest ih =>
    intro m pj hnd hmem
    have hnd' : (∀ x ∈ rest, ¬x.metadata.name = q.metadata.name) ∧
        (List.map (fun pj => pj.metadata.name) rest).Nodup := by
      simpa [recordNames] using hnd
    have hndrest : (recordNames rest).Nodup := by
      simpa [recordNames] using hnd'.2
    rcases List.mem_cons.mp hmem with rfl | hmem'
    · refine ⟨m, ?_, ?_, ?_⟩
      · simp only [runPhase]
        exact List.mem_cons_self _ _
      · intro qf hqf hqfname
        simp only [runPhase] at hqf
        rcases List.mem_cons.mp hqf with rfl | hqf'
        · rfl
        · exfalso
          obtain ⟨q', hq'mem, m'', hq'⟩ :=
            runPhase_finals_mem f rest (f pj m).pendingJobs qf hqf'
          apply hnd'.1 q' hq'mem
          rw [← hfname q' m'', ← hq']
          exact hqfname
      · simp only [runPhase]
        rw [countNamed_append]
        have h0 : countNamed pj.metadata.name
            (runPhase f (f pj m).pendingJobs rest).reports = 0 := by
          apply countNamed_zero
          intro r hr
          obtain ⟨q', hq'mem, m'', hr'⟩ :=
            runPhase_reports_mem f rest (f pj m).pendingJobs r hr
          rw [hname q' m'' r hr']
          intro hn
          exact hnd'.1 q' hq'mem hn
        omega
    · obtain ⟨m', hfin, huniq, hcount⟩ :=
        ih (f q m).pendingJobs pj hndrest hmem'
      have hqpj : q.metadata.name ≠ pj.metadata.name := by
        intro hn
        exact hnd'.1 pj hmem' hn.symm
      refine ⟨m', ?_, ?_, ?_⟩
      · simp only [runPhase]
        exact List.mem_cons_of_mem _ hfin
      · intro qf hqf hqfname
        simp only [runPhase] at hqf
        rcases List.mem_cons.mp hqf with rfl | hqf'
        · exact absurd (by rw [hfname q m] at hqfname; exact hqfname) hqpj
        · exact huniq qf hqf' hqfname
      · simp only [runPhase]
        rw [countNamed_append, hcount]
        have h0 : countNamed pj.metadata.name (f q m).reports = 0 := by
          apply countNamed_zero
          intro r hr
          rw [hname q m r hr]
          exact hqpj
        omega

theorem nodup_names_inj {l : List ProwJob} (h : (recordNames l).Nodup)
    {x y : ProwJob} (hx : x ∈ l) (hy : y ∈ l)
    (hxy : x.metadata.name = y.metadata.name) : x = y :=
  List.inj_on_of_nodup_map (by simpa [recordNames] using h) hx hy hxy

/-- The dedupe pass leaves the name sequence of the slice unchanged. -/
theorem terminateDupes_names (cfg : Config) (kc : KubeOracle) (jbs : BuildMap)
    (now : Nat) (pjs : List ProwJob) :
    recordNames (terminateDupes cfg kc jbs now pjs).1 = recordNames pjs := by
  apply List.ext_getElem?_iff.mpr
  intro i
  simp only [recordNames, List.getElem?_map]
  rcases (terminateDupes_sound cfg kc jbs now pjs).1 i with h |
    ⟨pj, hpj, _, hres, _⟩
  · rw [h]
  · rw [hres, hpj]
    rfl

/-- Every entry of the deduped slice is an original record or the aborted
version of an original record. -/
theorem terminateDupes_mem (cfg : Config) (kc : KubeOracle) (jbs : BuildMap)
    (now : Nat) (pjs : List ProwJob) :
    ∀ q ∈ (terminateDupes cfg kc jbs now pjs).1,
      q ∈ pjs ∨ ∃ p, p ∈ pjs ∧ dedupeEligible p = true ∧
        q = markAborted now p := by
  intro q hq
  obtain ⟨i, hi⟩ := List.getElem?_of_mem hq
  rcases (terminateDupes_sound cfg kc jbs now pjs).1 i with h |
    ⟨pj, hpj, hel, hres, _⟩
  · left
    rw [h] at hi
    exact List.getElem?_mem hi
  · right
    rw [hres] at hi
    injection hi with hi
    exact ⟨pj, List.getElem?_mem hpj, hel, hi.symm⟩

/-- A complete record's entry is untouched by the dedupe pass. -/
theorem terminateDupes_complete_mem (cfg : Config) (kc : KubeOracle)
    (jbs : BuildMap) (now : Nat) (pjs : List ProwJob) (pj : ProwJob)
    (hmem : pj ∈ pjs) (hc : pj.Complete = true) :
    pj ∈ (terminateDupes cfg kc jbs now pjs).1 := by
  obtain ⟨i, hi⟩ := List.getElem?_of_mem hmem
  rcases (terminateDupes_sound cfg kc jbs now pjs).1 i with h |
    ⟨q, hq, hel, _, _⟩
  · exact List.getElem?_mem (by rw [h]; exact hi)
  · rw [hq] at hi
    injection hi with hi
    rw [hi] at hel
    simp [dedupeEligible, hc] at hel

/-- Every named deduper call addresses an eligible (hence non-complete)
record of the slice. -/
theorem terminateDupes_ops_named (cfg : Config) (kc : KubeOracle)
    (jbs : BuildMap) (now : Nat) (pjs : List ProwJob) :
    ∀ op ∈ (terminateDupes cfg kc jbs now pjs).2.1,
      opRecordName op = none ∨
      ∃ pjX, pjX ∈ pjs ∧ dedupeEligible pjX = true ∧
        opRecordName op = some pjX.metadata.name := by
  intro op hop
  obtain ⟨j, pjX, hX, hXel, hform⟩ :=
    (terminateDupes_sound cfg kc jbs now pjs).2.1 op hop
  rcases hform with h | ⟨b, h, _⟩
  · right
    exact ⟨pjX, List.getElem?_mem hX, hXel, by rw [h]; rfl⟩
  · left
    rw [h]
    rfl

theorem runPhase_final_mem_of (f : ProwJob → CountMap → SyncStep)
    (pj : ProwJob) (hnoop : ∀ m', (f pj m').final = pj) :
    ∀ (l : List ProwJob) (m : CountMap), pj ∈ l →
      pj ∈ (runPhase f m l).finals := by
  intro l
  induction l with
  | nil => intro m h; cases h
  | cons q rest ih =>
    intro m hmem
    simp only [runPhase]
    rcases List.mem_cons.mp hmem with rfl | hmem'
    · rw [hnoop m]
      exact List.mem_cons_self _ _
    · exact List.mem_cons_of_mem _ (ih (f q m).pendingJobs hmem')

theorem syncTick_records (cfg : Config) (kc : KubeOracle) (jc : JenkinsOracle)
    (gh : GithubOracle) (now : Nat) (pjs0 : List ProwJob) (jbs : BuildMap) :
    (syncTick cfg kc jc gh now pjs0 jbs).records =
      (terminateDupes cfg kc jbs now
        (pjs0.filter fun q => q.spec.agent = jenkinsAgent)).1 := rfl

theorem syncTick_finals (cfg : Config) (kc : KubeOracle) (jc : JenkinsOracle)
    (gh : GithubOracle) (now : Nat) (pjs0 : List ProwJob) (jbs : BuildMap) :
    (syncTick cfg kc jc gh now pjs0 jbs).finals =
      (runPhase (syncPendingJob cfg kc gh now jbs) []
        (partitionPending (syncTick cfg kc jc gh now pjs0 jbs).records).1
        ).finals ++
      (runPhase (syncNonPendingJob cfg kc jc now jbs)
        (runPhase (syncPendingJob cfg kc gh now jbs) []
          (partitionPending (syncTick cfg kc jc gh now pjs0 jbs).records).1
          ).pendingJobs
        (partitionPending (syncTick cfg kc jc gh now pjs0 jbs).records).2
        ).finals := rfl

theorem syncTick_reports (cfg : Config) (kc : KubeOracle) (jc : JenkinsOracle)
    (gh : GithubOracle) (now : Nat) (pjs0 : List ProwJob) (jbs : BuildMap) :
    (syncTick cfg kc jc gh now pjs0 jbs).reports =
      (runPhase (syncPendingJob cfg kc gh now jbs) []
        (partitionPending (syncTick cfg kc jc gh now pjs0 jbs).records).1
        ).reports ++
      (runPhase (syncNonPendingJob cfg kc jc now jbs)
        (runPhase (syncPendingJob cfg kc gh now jbs) []
          (partitionPending (syncTick cfg kc jc gh now pjs0 jbs).records).1
          ).pendingJobs
        (partitionPending (syncTick cfg kc jc gh now pjs0 jbs).records).2
        ).reports := rfl

theorem syncTick_ops (cfg : Config) (kc : KubeOracle) (jc : JenkinsOracle)
    (gh : GithubOracle) (now : Nat) (pjs0 : List ProwJob) (jbs : BuildMap) :
    (syncTick cfg kc jc gh now pjs0 jbs).ops =
      (terminateDupes cfg kc jbs now
        (pjs0.filter fun q => q.spec.agent = jenkinsAgent)).2.1 ++
      (runPhase (syncPendingJob cfg kc gh now jbs) []
        (partitionPending (syncTick cfg kc jc gh now pjs0 jbs).records).1
        ).ops ++
      (runPhase (syncNonPendingJob cfg kc jc now jbs)
        (runPhase (syncPendingJob cfg kc gh now jbs) []
          (partitionPending (syncTick cfg kc jc gh now pjs0 jbs).records).1
          ).pendingJobs
        (partitionPending (syncTick cfg kc jc gh now pjs0 jbs).records).2
        ).ops := rfl

theorem syncTick_pendingJobs (cfg : Config) (kc : KubeOracle)
    (jc : JenkinsOracle) (gh : GithubOracle) (now : Nat) (pjs0 : List ProwJob)
    (jbs : BuildMap) :
    (syncTick cfg kc jc gh now pjs0 jbs).pendingJobs =
      (runPhase (syncNonPendingJob cfg kc jc now jbs)
        (runPhase (syncPendingJob cfg kc gh now jbs) []
          (partitionPending (syncTick cfg kc jc gh now pjs0 jbs).records).1
          ).pendingJobs
        (partitionPending (syncTick cfg kc jc gh now pjs0 jbs).records).2
        ).pendingJobs := rfl

/-- C1: terminal stickiness.  In a well-formed store (terminal states have
completion times) with unique record names, a record that is complete
(terminal state, completion time set) at the start of a tick is not replaced,
not submitted, and not reported by any operation of the tick — deduper,
pending driver or non-pending driver — and its end-of-tick store version is
identical to its start version; hence no record ever leaves a terminal
state during a tick. -/
theorem terminal_stickiness (cfg : Config) (kc : KubeOracle)
    (jc : JenkinsOracle) (gh : GithubOracle) (now : Nat)
    (pjs0 : List ProwJob) (jbs : BuildMap)
    (hWF : ∀ q ∈ pjs0, isTerminalState q.status.state = true →
      q.Complete = true)
    (hNodup : (recordNames pjs0).Nodup) :
    ∀ pj ∈ pjs0, pj.spec.agent = jenkinsAgent →
      isTerminalState pj.status.state = true →
      (pj ∈ (syncTick cfg kc jc gh now pjs0 jbs).finals ∧
       (∀ qf ∈ (syncTick cfg kc jc gh now pjs0 jbs).finals,
         qf.metadata.name = pj.metadata.name → qf = pj) ∧
       (∀ r ∈ (syncTick cfg kc jc gh now pjs0 jbs).reports,
         r.metadata.name ≠ pj.metadata.name) ∧
       (∀ op ∈ (syncTick cfg kc jc gh now pjs0 jbs).ops,
         opRecordName op ≠ some pj.metadata.name)) := by
  intro pj hmem hagent hterm
  have hc : pj.Complete = true := hWF pj hmem hterm
  have hmemF : pj ∈ pjs0.filter (fun q => q.spec.agent = jenkinsAgent) :=
    List.mem_filter.mpr ⟨hmem, by simp [hagent]⟩
  have hNodupF : (recordNames
      (pjs0.filter fun q => q.spec.agent = jenkinsAgent)).Nodup := by
    have hsub := List.Sublist.map (fun pj => pj.metadata.name)
      (List.filter_sublist (l := pjs0)
        (p := fun q => decide (q.spec.agent = jenkinsAgent)))
    simp only [recordNames] at hNodup ⊢
    exact List.Nodup.sublist hsub hNodup
  have hnamesR : recordNames (syncTick cfg kc jc gh now pjs0 jbs).records =
      recordNames (pjs0.filter fun q => q.spec.agent = jenkinsAgent) := by
    rw [syncTick_records]
    exact terminateDupes_names cfg kc jbs now _
  have hNodupR :
      (recordNames (syncTick cfg kc jc gh now pjs0 jbs).records).Nodup := by
    rw [hnamesR]; exact hNodupF
  have hmemR : pj ∈ (syncTick cfg kc jc gh now pjs0 jbs).records := by
    rw [syncTick_records]
    exact terminateDupes_complete_mem cfg kc jbs now _ pj hmemF hc
  have hnp : isPendingRecord pj = false := by
    simp only [isPendingRecord]
    cases hst : pj.status.state
    · rfl
    · rw [hst] at hterm
      exact absurd hterm (by decide)
    · rfl
    · rfl
    · rfl
    · rfl
  have hmemP2 : pj ∈ (partitionPending
      (syncTick cfg kc jc gh now pjs0 jbs).records).2 :=
    List.mem_filter.mpr ⟨hmemR, by simp [hnp]⟩
  have hnoop : ∀ m', syncNonPendingJob cfg kc jc now jbs pj m' =
      { pendingJobs := m', reports := [], ops := [], err := none,
        final := pj } :=
    fun m' => syncNonPendingJob_complete cfg kc jc now jbs pj m' hc
  -- a record of either partition sharing pj's name is pj itself
  have hinj1 : ∀ q ∈ (partitionPending
      (syncTick cfg kc jc gh now pjs0 jbs).records).1,
      q.metadata.name = pj.metadata.name → False := by
    intro q hq hn
    have hqR : q ∈ (syncTick cfg kc jc gh now pjs0 jbs).records :=
      (List.mem_filter.mp hq).1
    have hqpend : isPendingRecord q = true := by
      simpa using (List.mem_filter.mp hq).2
    have : q = pj := nodup_names_inj hNodupR hqR hmemR hn
    rw [this, hnp] at hqpend
    cases hqpend
  have hinj2 : ∀ q ∈ (partitionPending
      (syncTick cfg kc jc gh now pjs0 jbs).records).2,
      q.metadata.name = pj.metadata.name → q = pj := by
    intro q hq hn
    exact nodup_names_inj hNodupR ((List.mem_filter.mp hq).1) hmemR hn
  refine ⟨?_, ?_, ?_, ?_⟩
  · rw [syncTick_finals]
    refine List.mem_append_right _ ?_
    exact runPhase_final_mem_of _ pj (fun m' => by rw [hnoop m']) _ _ hmemP2
  · intro qf hqf hn
    rw [syncTick_finals] at hqf
    rcases List.mem_append.mp hqf with h | h
    · obtain ⟨q, hq, m'', hq'⟩ := runPhase_finals_mem _ _ _ qf h
      have hqn : qf.metadata.name = q.metadata.name := by
        rw [hq']
        exact congrArg ObjectMeta.name
          (syncPendingJob_names cfg kc gh now jbs q m'').2.2
      exfalso
      exact hinj1 q hq (by rw [← hqn]; exact hn)
    · obtain ⟨q, hq, m'', hq'⟩ := runPhase_finals_mem _ _ _ qf h
      have hqn : qf.metadata.name = q.metadata.name := by
        rw [hq']
        exact congrArg ObjectMeta.name
          (syncNonPendingJob_names cfg kc jc now jbs q m'').2.2
      have hqpj : q = pj := hinj2 q hq (by rw [← hqn, hn])
      rw [hq', hqpj, hnoop m'']
  · intro r hr hn
    rw [syncTick_reports] at hr
    rcases List.mem_append.mp hr with h | h
    · obtain ⟨q, hq, m'', hr'⟩ := runPhase_reports_mem _ _ _ r h
      have := (syncPendingJob_names cfg kc gh now jbs q m'').1 r hr'
      exact hinj1 q hq (by rw [← congrArg ObjectMeta.name this, hn])
    · obtain ⟨q, hq, m'', hr'⟩ := runPhase_reports_mem _ _ _ r h
      have := (syncNonPendingJob_names cfg kc jc now jbs q m'').1 r hr'
      have hqpj : q = pj :=
        hinj2 q hq (by rw [← congrArg ObjectMeta.name this, hn])
      rw [hqpj, hnoop m''] at hr'
      cases hr'
  · intro op hop hn
    rw [syncTick_ops] at hop
    rcases List.mem_append.mp hop with hop1 | hop3
    rotate_left
    · obtain ⟨q, hq, m'', hop'⟩ := runPhase_ops_mem _ _ _ op hop3
      rcases (syncNonPendingJob_names cfg kc jc now jbs q m'').2.1 op hop'
        with h | h
      · have hqpj : q = pj := hinj2 q hq (by
          rw [hn] at h
          injection h with h
          exact h.symm)
        rw [hqpj, hnoop m''] at hop'
        cases hop'
      · rw [hn] at h
        cases h
    rcases List.mem_append.mp hop1 with hopd | hop2
    · rcases terminateDupes_ops_named cfg kc jbs now _ op hopd with h |
        ⟨pjX, hX, hXel, h⟩
      · rw [hn] at h
        cases h
      · have hne : pjX.metadata.name = pj.metadata.name := by
          rw [h] at hn
          exact Option.some.inj hn
        have hXpj : pjX = pj := nodup_names_inj hNodupF hX hmemF hne
        rw [hXpj] at hXel
        simp [dedupeEligible, hc] at hXel
    · obtain ⟨q, hq, m'', hop'⟩ := runPhase_ops_mem _ _ _ op hop2
      rcases (syncPendingJob_names cfg kc gh now jbs q m'').2.1 op hop'
        with h | h
      · apply hinj1 q hq
        rw [hn] at h
        injection h with h
        exact h.symm
      · rw [hn] at h
        cases h

/-- Witness for `terminal_stickiness`: a complete (successful) record passes
through a tick untouched. -/
theorem terminal_stickiness_witness :
    pjDone ∈ (syncTick cfgPlain kcOK jcOK ghOK 50 [pjDone] []).finals ∧
    (∀ qf ∈ (syncTick cfgPlain kcOK jcOK ghOK 50 [pjDone] []).finals,
      qf.metadata.name = pjDone.metadata.name → qf = pjDone) ∧
    (∀ r ∈ (syncTick cfgPlain kcOK jcOK ghOK 50 [pjDone] []).reports,
      r.metadata.name ≠ pjDone.metadata.name) ∧
    (∀ op ∈ (syncTick cfgPlain kcOK jcOK ghOK 50 [pjDone] []).ops,
      opRecordName op ≠ some pjDone.metadata.name) :=
  terminal_stickiness cfgPlain kcOK jcOK ghOK 50 [pjDone] []
    (by
      intro q hq
      rcases List.mem_singleton.mp hq with rfl
      intro _
      rfl)
    (by decide) pjDone (List.mem_singleton.mpr rfl) rfl rfl

/-- C7 (amended): with unique record names, every record that the pending or
non-pending driver transitions (its persisted end-of-tick state differs from
its post-dedupe state) gets exactly one report that tick; a record the
deduper aborts gets no report at all (the claim's "including records aborted
by the deduper" fails, see the counterexample). -/
theorem transition_reporting (cfg : Config) (kc : KubeOracle)
    (jc : JenkinsOracle) (gh : GithubOracle) (now : Nat)
    (pjs0 : List ProwJob) (jbs : BuildMap)
    (hNodup : (recordNames pjs0).Nodup) :
    (∀ pj qf, pj ∈ (syncTick cfg kc jc gh now pjs0 jbs).records →
      qf ∈ (syncTick cfg kc jc gh now pjs0 jbs).finals →
      qf.metadata.name = pj.metadata.name →
      qf.status.state ≠ pj.status.state →
      countNamed pj.metadata.name
        (syncTick cfg kc jc gh now pjs0 jbs).reports = 1) ∧
    (∀ (j : Nat) (pjO pjD : ProwJob),
      (pjs0.filter fun q => q.spec.agent = jenkinsAgent)[j]? = some pjO →
      (syncTick cfg kc jc gh now pjs0 jbs).records[j]? = some pjD →
      pjD ≠ pjO →
      countNamed pjO.metadata.name
        (syncTick cfg kc jc gh now pjs0 jbs).reports = 0) := by
  have hNodupF : (recordNames
      (pjs0.filter fun q => q.spec.agent = jenkinsAgent)).Nodup := by
    have hsub := List.Sublist.map (fun pj => pj.metadata.name)
      (List.filter_sublist (l := pjs0)
        (p := fun q => decide (q.spec.agent = jenkinsAgent)))
    simp only [recordNames] at hNodup ⊢
    exact List.Nodup.sublist hsub hNodup
  have hNodupR :
      (recordNames (syncTick cfg kc jc gh now pjs0 jbs).records).Nodup := by
    rw [syncTick_records]
    rw [terminateDupes_names cfg kc jbs now _]
    exact hNodupF
  have hPname : ∀ (q : ProwJob) (m' : CountMap),
      ∀ r ∈ (syncPendingJob cfg kc gh now jbs q m').reports,
        r.metadata.name = q.metadata.name := fun q m' r hr =>
    congrArg ObjectMeta.name
      ((syncPendingJob_names cfg kc gh now jbs q m').1 r hr)
  have hPfname : ∀ (q : ProwJob) (m' : CountMap),
      (syncPendingJob cfg kc gh now jbs q m').final.metadata.name =
        q.metadata.name := fun q m' =>
    congrArg ObjectMeta.name (syncPendingJob_names cfg kc gh now jbs q m').2.2
  have hNname : ∀ (q : ProwJob) (m' : CountMap),
      ∀ r ∈ (syncNonPendingJob cfg kc jc now jbs q m').reports,
        r.metadata.name = q.metadata.name := fun q m' r hr =>
    congrArg ObjectMeta.name
      ((syncNonPendingJob_names cfg kc jc now jbs q m').1 r hr)
  have hNfname : ∀ (q : ProwJob) (m' : CountMap),
      (syncNonPendingJob cfg kc jc now jbs q m').final.metadata.name =
        q.metadata.name := fun q m' =>
    congrArg ObjectMeta.name
      (syncNonPendingJob_names cfg kc jc now jbs q m').2.2
  -- names of either partition are names of records
  have hmemsub1 : ∀ q ∈ (partitionPending
      (syncTick cfg kc jc gh now pjs0 jbs).records).1,
      q ∈ (syncTick cfg kc jc gh now pjs0 jbs).records :=
    fun q hq => (List.mem_filter.mp hq).1
  have hmemsub2 : ∀ q ∈ (partitionPending
      (syncTick cfg kc jc gh now pjs0 jbs).records).2,
      q ∈ (syncTick cfg kc jc gh now pjs0 jbs).records :=
    fun q hq => (List.mem_filter.mp hq).1
  have hNodup1 : (recordNames (partitionPending
      (syncTick cfg kc jc gh now pjs0 jbs).records).1).Nodup := by
    have hsub := List.Sublist.map (fun pj => pj.metadata.name)
      (List.filter_sublist
        (l := (syncTick cfg kc jc gh now pjs0 jbs).records)
        (p := isPendingRecord))
    simp only [recordNames] at hNodupR ⊢
    exact List.Nodup.sublist hsub hNodupR
  have hNodup2 : (recordNames (partitionPending
      (syncTick cfg kc jc gh now pjs0 jbs).records).2).Nodup := by
    have hsub := List.Sublist.map (fun pj => pj.metadata.name)
      (show List.Sublist
        (partitionPending (syncTick cfg kc jc gh now pjs0 jbs).records).2
        ((syncTick cfg kc jc gh now pjs0 jbs).records) from
        List.filter_sublist _)
    simp only [recordNames] at hNodupR ⊢
    exact List.Nodup.sublist hsub hNodupR
  constructor
  · intro pj qf hpjR hqf hname hch
    rw [syncTick_reports, countNamed_append]
    cases hpend : isPendingRecord pj with
    | true =>
      -- pj is handled by the pending phase
      have hp1 : pj ∈ (partitionPending
          (syncTick cfg kc jc gh now pjs0 jbs).records).1 :=
        List.mem_filter.mpr ⟨hpjR, by simp [hpend]⟩
      obtain ⟨m', hfinmem, huniq, hcount⟩ :=
        runPhase_named (syncPendingJob cfg kc gh now jbs) hPname hPfname
          (partitionPending (syncTick cfg kc jc gh now pjs0 jbs).records).1
          [] pj hNodup1 hp1
      have hqf' : qf = (syncPendingJob cfg kc gh now jbs pj m').final := by
        rw [syncTick_finals] at hqf
        rcases List.mem_append.mp hqf with h | h
        · exact huniq qf h hname
        · exfalso
          obtain ⟨q, hq, m'', hq'⟩ := runPhase_finals_mem _ _ _ qf h
          have hqeq : q = pj := by
            apply nodup_names_inj hNodupR (hmemsub2 q hq) hpjR
            rw [← hNfname q m'', ← hq']
            exact hname
          have : isPendingRecord q = false := by
            have := (List.mem_filter.mp hq).2
            simpa using this
          rw [hqeq, hpend] at this
          cases this
      have hrep1 : countNamed pj.metadata.name
          (runPhase (syncPendingJob cfg kc gh now jbs) []
            (partitionPending
              (syncTick cfg kc jc gh now pjs0 jbs).records).1).reports =
          1 := by
        rw [hcount]
        rw [syncPendingJob_transition cfg kc gh now jbs pj m'
          (by rw [← hqf']; exact hch)]
        simp [countNamed, ← hqf', hname]
      have hrep2 : countNamed pj.metadata.name
          (runPhase (syncNonPendingJob cfg kc jc now jbs)
            (runPhase (syncPendingJob cfg kc gh now jbs) []
              (partitionPending
                (syncTick cfg kc jc gh now pjs0 jbs).records).1).pendingJobs
            (partitionPending
              (syncTick cfg kc jc gh now pjs0 jbs).records).2).reports =
          0 := by
        apply countNamed_zero
        intro r hr
        obtain ⟨q, hq, m'', hr'⟩ := runPhase_reports_mem _ _ _ r hr
        rw [hNname q m'' r hr']
        intro hn
        have hqeq : q = pj :=
          nodup_names_inj hNodupR (hmemsub2 q hq) hpjR hn
        have : isPendingRecord q = false := by
          have := (List.mem_filter.mp hq).2
          simpa using this
        rw [hqeq, hpend] at this
        cases this
      omega
    | false =>
      -- pj is handled by the non-pending phase
      have hp2 : pj ∈ (partitionPending
          (syncTick cfg kc jc gh now pjs0 jbs).records).2 :=
        List.mem_filter.mpr ⟨hpjR, by simp [hpend]⟩
      obtain ⟨m', hfinmem, huniq, hcount⟩ :=
        runPhase_named (syncNonPendingJob cfg kc jc now jbs) hNname hNfname
          (partitionPending (syncTick cfg kc jc gh now pjs0 jbs).records).2
          (runPhase (syncPendingJob cfg kc gh now jbs) []
            (partitionPending
              (syncTick cfg kc jc gh now pjs0 jbs).records).1).pendingJobs
          pj hNodup2 hp2
      have hqf' : qf = (syncNonPendingJob cfg kc jc now jbs pj m').final := by
        rw [syncTick_finals] at hqf
        rcases List.mem_append.mp hqf with h | h
        · exfalso
          obtain ⟨q, hq, m'', hq'⟩ := runPhase_finals_mem _ _ _ qf h
          have hqeq : q = pj := by
            apply nodup_names_inj hNodupR (hmemsub1 q hq) hpjR
            rw [← hPfname q m'', ← hq']
            exact hname
          have : isPendingRecord q = true := by
            have := (List.mem_filter.mp hq).2
            simpa using this
          rw [hqeq, hpend] at this
          cases this
        · exact huniq qf h hname
      have hrep1 : countNamed pj.metadata.name
          (runPhase (syncPendingJob cfg kc gh now jbs) []
            (partitionPending
              (syncTick cfg kc jc gh now pjs0 jbs).records).1).reports =
          0 := by
        apply countNamed_zero
        intro r hr
        obtain ⟨q, hq, m'', hr'⟩ := runPhase_reports_mem _ _ _ r hr
        rw [hPname q m'' r hr']
        intro hn
        have hqeq : q = pj :=
          nodup_names_inj hNodupR (hmemsub1 q hq) hpjR hn
        have : isPendingRecord q = true := by
          have := (List.mem_filter.mp hq).2
          simpa using this
        rw [hqeq, hpend] at this
        cases this
      have hrep2 : countNamed pj.metadata.name
          (runPhase (syncNonPendingJob cfg kc jc now jbs)
            (runPhase (syncPendingJob cfg kc gh now jbs) []
              (partitionPending
                (syncTick cfg kc jc gh now pjs0 jbs).records).1).pendingJobs
            (partitionPending
              (syncTick cfg kc jc gh now pjs0 jbs).records).2).reports =
          1 := by
        rw [hcount]
        rw [syncNonPendingJob_transition cfg kc jc now jbs pj m'
          (by rw [← hqf']; exact hch)]
        simp [countNamed, ← hqf', hname]
      omega
  · intro j pjO pjD hO hD hne
    have hform : pjD = markAborted now pjO ∧ dedupeEligible pjO = true := by
      rw [syncTick_records] at hD
      rcases (terminateDupes_sound cfg kc jbs now _).1 j with h |
        ⟨p, hp, hel, hres, _⟩
      · rw [hD, hO] at h
        injection h with h
        exact absurd h hne
      · rw [hO] at hp
        injection hp with hp
        subst hp
        rw [hD] at hres
        injection hres with hres
        exact ⟨hres, hel⟩
    have hDR : pjD ∈ (syncTick cfg kc jc gh now pjs0 jbs).records :=
      List.getElem?_mem hD
    have hDname : pjD.metadata.name = pjO.metadata.name := by
      rw [hform.1]
      rfl
    have hDc : pjD.Complete = true := by
      rw [hform.1]
      simp [markAborted, ProwJob.Complete]
    have hDnp : isPendingRecord pjD = false := by
      rw [hform.1]
      simp [markAborted, isPendingRecord]
    rw [syncTick_reports, countNamed_append]
    have hrep1 : countNamed pjO.metadata.name
        (runPhase (syncPendingJob cfg kc gh now jbs) []
          (partitionPending
            (syncTick cfg kc jc gh now pjs0 jbs).records).1).reports =
        0 := by
      apply countNamed_zero
      intro r hr
      obtain ⟨q, hq, m'', hr'⟩ := runPhase_reports_mem _ _ _ r hr
      rw [hPname q m'' r hr']
      intro hn
      have hqeq : q = pjD :=
        nodup_names_inj hNodupR (hmemsub1 q hq) hDR (by rw [hn, hDname])
      have : isPendingRecord q = true := by
        have := (List.mem_filter.mp hq).2
        simpa using this
      rw [hqeq, hDnp] at this
      cases this
    have hrep2 : countNamed pjO.metadata.name
        (runPhase (syncNonPendingJob cfg kc jc now jbs)
          (runPhase (syncPendingJob cfg kc gh now jbs) []
            (partitionPending
              (syncTick cfg kc jc gh now pjs0 jbs).records).1).pendingJobs
          (partitionPending
            (syncTick cfg kc jc gh now pjs0 jbs).records).2).reports =
        0 := by
      apply countNamed_zero
      intro r hr
      obtain ⟨q, hq, m'', hr'⟩ := runPhase_reports_mem _ _ _ r hr
      rw [hNname q m'' r hr']
      intro hn
      have hqeq : q = pjD :=
        nodup_names_inj hNodupR (hmemsub2 q hq) hDR (by rw [hn, hDname])
      rw [hqeq, syncNonPendingJob_complete cfg kc jc now jbs pjD m'' hDc]
        at hr'
      cases hr'
    omega

theorem lookupBuild_mem (jbs : BuildMap) (n : String) (b : JenkinsBuild)
    (h : lookupBuild jbs n = some b) : ∃ k, (k, b) ∈ jbs := by
  induction jbs with
  | nil => cases h
  | cons hd tl ih =>
    obtain ⟨k, b'⟩ := hd
    by_cases hk : k = n
    · simp only [lookupBuild, hk, if_pos rfl] at h
      injection h with h
      exact ⟨k, by rw [← h]; exact List.mem_cons_self _ _⟩
    · simp only [lookupBuild, hk, if_neg hk] at h
      obtain ⟨k', hk'⟩ := ih h
      exact ⟨k', List.mem_cons_of_mem _ hk'⟩

/-- C6 (amended): at the end of a tick in which every store and backend call
succeeds, every build snapshot satisfies one of the five predicates, and no
non-complete non-pending record has a pre-existing build snapshot, the sum
of the `pendingJobs` counts equals the number of records pending at tick
end.  (Unconditionally the claim is false — a non-pending record with a
pre-existing build is advanced to pending without being counted, see the
counterexample.) -/
theorem pendingJobs_count (cfg : Config) (kc : KubeOracle) (jc : JenkinsOracle)
    (gh : GithubOracle) (now : Nat) (pjs0 : List ProwJob) (jbs : BuildMap)
    (hrep : ∀ s, kc.replaceOk s = true)
    (hcreate : ∀ s, kc.createOk s = true)
    (hsub : ∀ s, jc.buildOk s = true)
    (htotal : ∀ p ∈ jbs, BuildTotal p.2)
    (hnb : ∀ q ∈ pjs0, q.status.state ≠ .pending → q.Complete = false →
      lookupBuild jbs q.metadata.name = none) :
    sumCounts (syncTick cfg kc jc gh now pjs0 jbs).pendingJobs =
      ((syncTick cfg kc jc gh now pjs0 jbs).finals.filter
        isPendingRecord).length := by
  have hcount1 := runPhase_count (syncPendingJob cfg kc gh now jbs)
    (partitionPending (syncTick cfg kc jc gh now pjs0 jbs).records).1 []
    (by
      intro pj hpj m'
      have hst : pj.status.state = .pending := by
        have := (List.mem_filter.mp hpj).2
        simp only [isPendingRecord] at this
        exact of_decide_eq_true (by simpa using this)
      exact syncPendingJob_count cfg kc gh now jbs pj m' hst hrep hcreate
        (fun jb hjb => by
          obtain ⟨k, hk⟩ := lookupBuild_mem jbs pj.metadata.name jb hjb
          exact htotal (k, jb) hk))
  have hcount2 := runPhase_count (syncNonPendingJob cfg kc jc now jbs)
    (partitionPending (syncTick cfg kc jc gh now pjs0 jbs).records).2
    (runPhase (syncPendingJob cfg kc gh now jbs) []
      (partitionPending
        (syncTick cfg kc jc gh now pjs0 jbs).records).1).pendingJobs
    (by
      intro pj hpj m'
      have hst : pj.status.state ≠ .pending := by
        have := (List.mem_filter.mp hpj).2
        simp only [isPendingRecord] at this
        intro heq
        simp [heq] at this
      have hpjR : pj ∈ (syncTick cfg kc jc gh now pjs0 jbs).records :=
        (List.mem_filter.mp hpj).1
      have hnb' : pj.Complete = false →
          lookupBuild jbs pj.metadata.name = none := by
        intro hc
        rw [syncTick_records] at hpjR
        rcases terminateDupes_mem cfg kc jbs now _ pj hpjR with hmem |
          ⟨p, _, _, habort⟩
        · exact hnb pj (List.mem_of_mem_filter hmem) hst hc
        · rw [habort] at hc
          simp [markAborted, ProwJob.Complete] at hc
      exact syncNonPendingJob_count cfg kc jc now jbs pj m' hst hrep hsub
        hnb')
  rw [syncTick_pendingJobs, syncTick_finals, hcount2, hcount1,
    List.filter_append, List.length_append]
  simp [sumCounts]

/-- Witness for `transition_reporting`: a freshly submitted record
(triggered to pending) gets exactly one report. -/
theorem transition_reporting_witness :
    countNamed pjT.metadata.name
      (syncTick cfgPlain kcOK jcOK ghOK 50 [pjT] []).reports = 1 :=
  (transition_reporting cfgPlain kcOK jcOK ghOK 50 [pjT] [] (by decide)).1
    pjT qfT (List.mem_singleton.mpr rfl) (List.mem_singleton.mpr rfl) rfl
    (by decide)

/-- C7 (counterexample): deduping aborts and persists the superseded record
"b" (triggered to aborted — a state transition this tick), yet the tick
emits zero reports for it, refuting "exactly one report ... including
records aborted by the deduper". -/
theorem transition_reporting_cex :
    ((syncTick cfgPlain kcOK jcOK ghOK 99 [pjNew, pjOld] []).records[1]?).map
      (fun r => r.status.state) = some ProwJobState.aborted ∧
    pjOld.status.state = ProwJobState.triggered ∧
    (syncTick cfgPlain kcOK jcOK ghOK 99 [pjNew, pjOld] []).ops[0]? =
      some (Op.replace "b" (markAborted 99 pjOld) true) ∧
    countNamed "b"
      (syncTick cfgPlain kcOK jcOK ghOK 99 [pjNew, pjOld] []).reports = 0 :=
  ⟨rfl, rfl, rfl, rfl⟩

/-- Witness for `pendingJobs_count`: one triggered record submitted this
tick; the counter and the pending-record count agree (both 1). -/
theorem pendingJobs_count_witness :
    sumCounts (syncTick cfgPlain kcOK jcOK ghOK 50 [pjT] []).pendingJobs =
      ((syncTick cfgPlain kcOK jcOK ghOK 50 [pjT] []).finals.filter
        isPendingRecord).length :=
  pendingJobs_count cfgPlain kcOK jcOK ghOK 50 [pjT] []
    (fun _ => rfl) (fun _ => rfl) (fun _ => rfl)
    (by intro p hp; cases hp)
    (by intro q _ _ _; rfl)

/-- C6 (counterexample): a triggered record whose build already exists is
advanced to pending without incrementing `pendingJobs`: at tick end the sum
of the counts is 0 while one record is pending, refuting P2 as stated (all
store and backend calls succeed here). -/
theorem pendingJobs_count_cex :
    sumCounts (syncTick cfgPlain kcOK jcOK ghOK 50 [pjT] jbsT).pendingJobs =
      0 ∧
    ((syncTick cfgPlain kcOK jcOK ghOK 50 [pjT] jbsT).finals.filter
      isPendingRecord).length = 1 ∧
    sumCounts (syncTick cfgPlain kcOK jcOK ghOK 50 [pjT] jbsT).pendingJobs ≠
      ((syncTick cfgPlain kcOK jcOK ghOK 50 [pjT] jbsT).finals.filter
        isPendingRecord).length := ⟨rfl, rfl, by decide⟩

theorem createChildren_err_ops (cfg : Config) (kc : KubeOracle)
    (gh : GithubOracle) (parent : ProwJob) (l : List ProwJobSpec) (e : Err)
    (h : (createChildren cfg kc gh parent l).2 = some e) :
    (createChildren cfg kc gh parent l).1 ≠ [] := by
  induction l with
  | nil => simp [createChildren] at h
  | cons nj rest ih =>
    by_cases hcan :
        RunAfterSuccessCanRun cfg gh parent
          (NewProwJob nj parent.metadata.labels) = true
    · by_cases hok : kc.createOk nj = true
      · rw [createChildren_cons_ok rest hcan hok]
        simp
      · have hok' : kc.createOk nj = false := by
          cases hh : kc.createOk nj
          · rfl
          · exact absurd hh hok
        rw [createChildren_cons_fail rest hcan hok']
        simp
    · rw [createChildren_cons_skip rest hcan] at h ⊢
      exact ih h

/-- A pending-driver step that made no calls did not depend on the clock:
at any other time it produces the identical outcome. -/
theorem syncPendingJob_now (cfg : Config) (kc : KubeOracle)
    (gh : GithubOracle) (jbs : BuildMap) (pj : ProwJob) (m : CountMap)
    (now : Nat) (h : (syncPendingJob cfg kc gh now jbs pj m).ops = []) :
    ∀ now', syncPendingJob cfg kc gh now' jbs pj m =
      syncPendingJob cfg kc gh now jbs pj m := by
  cases hlb : lookupBuild jbs pj.metadata.name with
  | none =>
    exfalso
    have ho := (reportAndReplace_spec kc m [] pj
      (markMissingBuild now pj)).2.2.1
    have : ([] : List Op) ++
        [Op.replace (markMissingBuild now pj).metadata.name
          (markMissingBuild now pj)
          (kc.replaceOk (markMissingBuild now pj).metadata.name)] = [] := by
      rw [← ho]
      simp only [syncPendingJob, hlb] at h
      exact h
    simp at this
  | some jb =>
    by_cases h1 : jb.isEnqueued = true
    · have e1 : ∀ nw, syncPendingJob cfg kc gh nw jbs pj m =
          { pendingJobs := incrementNumPendingJobs m pj.spec.job
            reports := [], ops := [], err := none, final := pj } :=
        fun nw => by simp [syncPendingJob, hlb, h1]
      intro now'
      rw [e1 now', e1 now]
    · by_cases h2 : jb.isRunning = true
      · by_cases h3 : pj.status.description = "Jenkins job running."
        · have e1 : ∀ nw, syncPendingJob cfg kc gh nw jbs pj m =
              { pendingJobs := incrementNumPendingJobs m pj.spec.job
                reports := [], ops := [], err := none, final := pj } :=
            fun nw => by simp [syncPendingJob, hlb, h1, h2, h3]
          intro now'
          rw [e1 now', e1 now]
        · exfalso
          have hstep : syncPendingJob cfg kc gh now jbs pj m =
              reportAndReplace kc (incrementNumPendingJobs m pj.spec.job) []
                pj (resolveURL cfg jb
                  { pj with status := { pj.status with
                      description := "Jenkins job running." } }) := by
            simp [syncPendingJob, finishPendingJob, hlb, h1, h2, h3]
          rw [hstep] at h
          rw [(reportAndReplace_spec kc _ [] pj _).2.2.1] at h
          simp at h
      · by_cases h4 : jb.isSuccess = true
        · exfalso
          cases hcc : (createChildren cfg kc gh (markSucceeded now pj)
              pj.spec.runAfterSuccess).2 with
          | some e =>
            have hstep : (syncPendingJob cfg kc gh now jbs pj m).ops =
                (createChildren cfg kc gh (markSucceeded now pj)
                  pj.spec.runAfterSuccess).1 := by
              simp [syncPendingJob, hlb, h1, h2, h4, hcc]
            rw [hstep] at h
            exact createChildren_err_ops cfg kc gh (markSucceeded now pj)
              pj.spec.runAfterSuccess e hcc h
          | none =>
            have hstep : (syncPendingJob cfg kc gh now jbs pj m).ops =
                (createChildren cfg kc gh (markSucceeded now pj)
                  pj.spec.runAfterSuccess).1 ++
                [Op.replace
                  (resolveURL cfg jb (markSucceeded now pj)).metadata.name
                  (resolveURL cfg jb (markSucceeded now pj))
                  (kc.replaceOk
                    (resolveURL cfg jb
                      (markSucceeded now pj)).metadata.name)] := by
              rw [show syncPendingJob cfg kc gh now jbs pj m =
                  reportAndReplace kc m
                    (createChildren cfg kc gh (markSucceeded now pj)
                      pj.spec.runAfterSuccess).1 pj
                    (resolveURL cfg jb (markSucceeded now pj)) from by
                simp [syncPendingJob, finishPendingJob, hlb, h1, h2, h4, hcc]]
              exact (reportAndReplace_spec kc m _ pj _).2.2.1
            rw [hstep] at h
            simp at h
        · by_cases h5 : jb.isFailure = true
          · exfalso
            have hstep : syncPendingJob cfg kc gh now jbs pj m =
                reportAndReplace kc m [] pj (resolveURL cfg jb
                  { pj with status := { pj.status with
                      completionTime := some now, state := .failure,
                      description := "Jenkins job failed." } }) := by
              simp [syncPendingJob, finishPendingJob, hlb, h1, h2, h4, h5]
            rw [hstep] at h
            rw [(reportAndReplace_spec kc _ [] pj _).2.2.1] at h
            simp at h
          · by_cases h6 : jb.isAborted = true
            · exfalso
              have hstep : syncPendingJob cfg kc gh now jbs pj m =
                  reportAndReplace kc m [] pj (resolveURL cfg jb
                    { pj with status := { pj.status with
                        completionTime := some now, state := .aborted,
                        description := "Jenkins job aborted." } }) := by
                simp [syncPendingJob, finishPendingJob, hlb, h1, h2, h4, h5,
                  h6]
              rw [hstep] at h
              rw [(reportAndReplace_spec kc _ [] pj _).2.2.1] at h
              simp at h
            · exfalso
              have hstep : syncPendingJob cfg kc gh now jbs pj m =
                  reportAndReplace kc m [] pj (resolveURL cfg jb pj) := by
                simp [syncPendingJob, finishPendingJob, hlb, h1, h2, h4, h5,
                  h6]
              rw [hstep] at h
              rw [(reportAndReplace_spec kc _ [] pj _).2.2.1] at h
              simp at h

/-- A non-pending-driver step that made no calls did not depend on the
clock. -/
theorem syncNonPendingJob_now (cfg : Config) (kc : KubeOracle)
    (jc : JenkinsOracle) (jbs : BuildMap) (pj : ProwJob) (m : CountMap)
    (now : Nat)
    (h : (syncNonPendingJob cfg kc jc now jbs pj m).ops = []) :
    ∀ now', syncNonPendingJob cfg kc jc now' jbs pj m =
      syncNonPendingJob cfg kc jc now jbs pj m := by
  by_cases hc : pj.Complete = true
  · intro now'
    rw [syncNonPendingJob_complete cfg kc jc now' jbs pj m hc,
      syncNonPendingJob_complete cfg kc jc now jbs pj m hc]
  · have hc' : pj.Complete = false := by
      cases hh : pj.Complete
      · rfl
      · exact absurd hh hc
    cases hlb : lookupBuild jbs pj.metadata.name with
    | none =>
      cases hadm : (canExecuteConcurrently cfg m pj).1 with
      | false =>
        have e1 : ∀ nw, syncNonPendingJob cfg kc jc nw jbs pj m =
            { pendingJobs := (canExecuteConcurrently cfg m pj).2
              reports := [], ops := [], err := none, final := pj } :=
          fun nw => by simp [syncNonPendingJob, hc', hlb, hadm]
        intro now'
        rw [e1 now', e1 now]
      | true =>
        exfalso
        cases hsub : jc.buildOk pj.metadata.name with
        | false =>
          have hstep : syncNonPendingJob cfg kc jc now jbs pj m =
              reportAndReplace kc (canExecuteConcurrently cfg m pj).2
                [Op.submit pj.metadata.name false] pj
                { pj with status := { pj.status with
                    completionTime := some now, state := .error,
                    url := testInfra,
                    description := "Error starting Jenkins job." } } := by
            simp [syncNonPendingJob, hc', hlb, hadm, hsub]
          rw [hstep] at h
          rw [(reportAndReplace_spec kc _ _ pj _).2.2.1] at h
          simp at h
        | true =>
          have hstep : syncNonPendingJob cfg kc jc now jbs pj m =
              reportAndReplace kc (canExecuteConcurrently cfg m pj).2
                [Op.submit pj.metadata.name true] pj
                { pj with status := { pj.status with
                    state := .pending,
                    description := "Jenkins job enqueued." } } := by
            simp [syncNonPendingJob, hc', hlb, hadm, hsub]
          rw [hstep] at h
          rw [(reportAndReplace_spec kc _ _ pj _).2.2.1] at h
          simp at h
    | some jb =>
      exfalso
      have hstep : syncNonPendingJob cfg kc jc now jbs pj m =
          reportAndReplace kc m [] pj
            { pj with status := { pj.status with
                state := .pending,
                description := "Jenkins job enqueued." } } := by
        simp [syncNonPendingJob, hc', hlb]
      rw [hstep] at h
      rw [(reportAndReplace_spec kc _ [] pj _).2.2.1] at h
      simp at h

/-- A quiet dedupe pass (no calls) left the slice untouched, returned no
error, and behaves identically at any other time. -/
theorem terminateDupesGo_now (cfg : Config) (kc : KubeOracle)
    (jbs : BuildMap) :
    ∀ (fuel i : Nat) (dupes : IdxMap) (pjs : List ProwJob) (now : Nat),
      (terminateDupesGo cfg kc jbs now fuel i dupes pjs).2.1 = [] →
      ∀ now', terminateDupesGo cfg kc jbs now' fuel i dupes pjs =
        (pjs, [], none) := by
  intro fuel
  induction fuel with
  | zero =>
    intro i dupes pjs now _ now'
    simp [terminateDupesGo]
  | succ fuel ih =>
    intro i dupes pjs now h now'
    cases hpi : pjs[i]? with
    | none => simp [terminateDupesGo, hpi]
    | some pj =>
      by_cases hel : dedupeEligible pj = true
      · cases hlk : lookupIdx dupes (dedupeKey pj) with
        | none =>
          have hstep : ∀ nw, terminateDupesGo cfg kc jbs nw (fuel + 1) i
              dupes pjs =
              terminateDupesGo cfg kc jbs nw fuel (i + 1)
                (setIdx dupes (dedupeKey pj) i) pjs :=
            fun nw => by simp [terminateDupesGo, hpi, hel, hlk]
          rw [hstep now] at h
          rw [hstep now']
          exact ih (i + 1) (setIdx dupes (dedupeKey pj) i) pjs now h now'
        | some prev =>
          by_cases hnew : startTimeAt pjs prev < pj.status.startTime
          · cases hq : pjs[prev]? with
            | none =>
              -- out-of-range read: the cancel target defaults to `pj`
              by_cases hskip : dedupeSkip cfg jbs pj = true
              · have hstep : ∀ nw, terminateDupesGo cfg kc jbs nw (fuel + 1)
                    i dupes pjs =
                    terminateDupesGo cfg kc jbs nw fuel (i + 1)
                      (setIdx dupes (dedupeKey pj) i) pjs :=
                  fun nw => by
                    simp [terminateDupesGo, hpi, hel, hlk, hnew, hq, hskip]
                rw [hstep now] at h
                rw [hstep now']
                exact ih (i + 1) (setIdx dupes (dedupeKey pj) i) pjs now h
                  now'
              · exfalso
                cases hrep : kc.replaceOk pj.metadata.name with
                | true =>
                  have hstep : (terminateDupesGo cfg kc jbs now (fuel + 1) i
                      dupes pjs).2.1 =
                      dedupeAbortOps cfg jbs pj ++
                        Op.replace pj.metadata.name (markAborted now pj)
                          true ::
                          (terminateDupesGo cfg kc jbs now fuel (i + 1)
                            (setIdx dupes (dedupeKey pj) i)
                            (pjs.set prev (markAborted now pj))).2.1 := by
                    simp [terminateDupesGo, hpi, hel, hlk, hnew, hq, hskip,
                      hrep]
                  rw [hstep] at h
                  simp at h
                | false =>
                  have hstep : (terminateDupesGo cfg kc jbs now (fuel + 1) i
                      dupes pjs).2.1 =
                      dedupeAbortOps cfg jbs pj ++
                        [Op.replace pj.metadata.name (markAborted now pj)
                          false] := by
                    simp [terminateDupesGo, hpi, hel, hlk, hnew, hq, hskip,
                      hrep]
                  rw [hstep] at h
                  simp at h
            | some q =>
              by_cases hskip : dedupeSkip cfg jbs q = true
              · have hstep : ∀ nw, terminateDupesGo cfg kc jbs nw (fuel + 1)
                    i dupes pjs =
                    terminateDupesGo cfg kc jbs nw fuel (i + 1)
                      (setIdx dupes (dedupeKey pj) i) pjs :=
                  fun nw => by
                    simp [terminateDupesGo, hpi, hel, hlk, hnew, hq, hskip]
                rw [hstep now] at h
                rw [hstep now']
                exact ih (i + 1) (setIdx dupes (dedupeKey pj) i) pjs now h
                  now'
              · exfalso
                cases hrep : kc.replaceOk q.metadata.name with
                | true =>
                  have hstep : (terminateDupesGo cfg kc jbs now (fuel + 1) i
                      dupes pjs).2.1 =
                      dedupeAbortOps cfg jbs q ++
                        Op.replace q.metadata.name (markAborted now q)
                          true ::
                          (terminateDupesGo cfg kc jbs now fuel (i + 1)
                            (setIdx dupes (dedupeKey pj) i)
                            (pjs.set prev (markAborted now q))).2.1 := by
                    simp [terminateDupesGo, hpi, hel, hlk, hnew, hq, hskip,
                      hrep]
                  rw [hstep] at h
                  simp at h
                | false =>
                  have hstep : (terminateDupesGo cfg kc jbs now (fuel + 1) i
                      dupes pjs).2.1 =
                      dedupeAbortOps cfg jbs q ++
                        [Op.replace q.metadata.name (markAborted now q)
                          false] := by
                    simp [terminateDupesGo, hpi, hel, hlk, hnew, hq, hskip,
                      hrep]
                  rw [hstep] at h
                  simp at h
          · -- the current index is the cancel target
            by_cases hskip : dedupeSkip cfg jbs pj = true
            · have hstep : ∀ nw, terminateDupesGo cfg kc jbs nw (fuel + 1) i
                  dupes pjs =
                  terminateDupesGo cfg kc jbs nw fuel (i + 1) dupes pjs :=
                fun nw => by simp [terminateDupesGo, hpi, hel, hlk, hnew,
                  hskip]
              rw [hstep now] at h
              rw [hstep now']
              exact ih (i + 1) dupes pjs now h now'
            · exfalso
              cases hrep : kc.replaceOk pj.metadata.name with
              | true =>
                have hstep : (terminateDupesGo cfg kc jbs now (fuel + 1) i
                    dupes pjs).2.1 =
                    dedupeAbortOps cfg jbs pj ++
                      Op.replace pj.metadata.name (markAborted now pj)
                        true ::
                        (terminateDupesGo cfg kc jbs now fuel (i + 1) dupes
                          (pjs.set i (markAborted now pj))).2.1 := by
                  simp [terminateDupesGo, hpi, hel, hlk, hnew, hskip, hrep]
                rw [hstep] at h
                simp at h
              | false =>
                have hstep : (terminateDupesGo cfg kc jbs now (fuel + 1) i
                    dupes pjs).2.1 =
                    dedupeAbortOps cfg jbs pj ++
                      [Op.replace pj.metadata.name (markAborted now pj)
                        false] := by
                  simp [terminateDupesGo, hpi, hel, hlk, hnew, hskip, hrep]
                rw [hstep] at h
                simp at h
      · have hel' : dedupeEligible pj = false := by
          cases hh : dedupeEligible pj
          · rfl
          · exact absurd hh hel
        have hstep : ∀ nw, terminateDupesGo cfg kc jbs nw (fuel + 1) i dupes
            pjs =
            terminateDupesGo cfg kc jbs nw fuel (i + 1) dupes pjs :=
          fun nw => by simp [terminateDupesGo, hpi, hel']
        rw [hstep now] at h
        rw [hstep now']
        exact ih (i + 1) dupes pjs now h now'

theorem runPhase_now (f g : ProwJob → CountMap → SyncStep)
    (hstep : ∀ pj m', (f pj m').ops = [] → g pj m' = f pj m') :
    ∀ (l : List ProwJob) (m : CountMap),
      (runPhase f m l).ops = [] → runPhase g m l = runPhase f m l := by
  intro l
  induction l with
  | nil => intro m _; rfl
  | cons pj rest ih =>
    intro m h
    simp only [runPhase] at h ⊢
    rcases List.append_eq_nil.mp h with ⟨hs, hr⟩
    rw [hstep pj m hs]
    rw [ih (f pj m).pendingJobs hr]

theorem syncTick_errs (cfg : Config) (kc : KubeOracle) (jc : JenkinsOracle)
    (gh : GithubOracle) (now : Nat) (pjs0 : List ProwJob) (jbs : BuildMap) :
    (syncTick cfg kc jc gh now pjs0 jbs).errs =
      (match (terminateDupes cfg kc jbs now
          (pjs0.filter fun q => q.spec.agent = jenkinsAgent)).2.2 with
        | some e => [e]
        | none => []) ++
      (runPhase (syncPendingJob cfg kc gh now jbs) []
        (partitionPending (syncTick cfg kc jc gh now pjs0 jbs).records).1
        ).errs ++
      (runPhase (syncNonPendingJob cfg kc jc now jbs)
        (runPhase (syncPendingJob cfg kc gh now jbs) []
          (partitionPending (syncTick cfg kc jc gh now pjs0 jbs).records).1
          ).pendingJobs
        (partitionPending (syncTick cfg kc jc gh now pjs0 jbs).records).2
        ).errs := rfl

theorem TickResult.ext' (a b : TickResult)
    (h1 : a.pendingJobs = b.pendingJobs) (h2 : a.records = b.records)
    (h3 : a.reports = b.reports) (h4 : a.ops = b.ops) (h5 : a.errs = b.errs)
    (h6 : a.finals = b.finals) : a = b := by
  cases a
  cases b
  simp_all

/-- Top-level form of `terminateDupesGo_now`. -/
theorem terminateDupes_now (cfg : Config) (kc : KubeOracle) (jbs : BuildMap)
    (now : Nat) (pjs : List ProwJob)
    (h : (terminateDupes cfg kc jbs now pjs).2.1 = []) :
    ∀ now', terminateDupes cfg kc jbs now' pjs = (pjs, [], none) :=
  fun now' => terminateDupesGo_now cfg kc jbs pjs.length 0 [] pjs now h now'

/-- C9 (amended): a steady-state tick stays steady.  If a Sync tick makes no
store or backend calls, then a Sync tick at any later time over the
unchanged external state (same records, same builds) computes the identical
result — in particular it again makes no Replace, Create, Submit or Abort
calls.  (Unconditionally the claim is false: a tick CAN be followed by a
writing tick over unchanged external state, see the counterexample.) -/
theorem sync_quiescence (cfg : Config) (kc : KubeOracle) (jc : JenkinsOracle)
    (gh : GithubOracle) (now now' : Nat) (pjs0 : List ProwJob)
    (jbs : BuildMap)
    (h : (syncTick cfg kc jc gh now pjs0 jbs).ops = []) :
    syncTick cfg kc jc gh now' pjs0 jbs =
      syncTick cfg kc jc gh now pjs0 jbs ∧
    (syncTick cfg kc jc gh now' pjs0 jbs).ops = [] := by
  have h0 := h
  rw [syncTick_ops] at h
  rcases List.append_eq_nil.mp h with ⟨hab, hnonp⟩
  rcases List.append_eq_nil.mp hab with ⟨hdd, hpend⟩
  have hddeq := terminateDupes_now cfg kc jbs now _ hdd
  have hrecn : (syncTick cfg kc jc gh now pjs0 jbs).records =
      pjs0.filter fun q => q.spec.agent = jenkinsAgent := by
    rw [syncTick_records, hddeq now]
  have hrecn' : (syncTick cfg kc jc gh now' pjs0 jbs).records =
      pjs0.filter fun q => q.spec.agent = jenkinsAgent := by
    rw [syncTick_records, hddeq now']
  rw [hrecn] at hpend hnonp
  have hpendeq := runPhase_now (syncPendingJob cfg kc gh now jbs)
    (syncPendingJob cfg kc gh now' jbs)
    (fun pj m' hops => syncPendingJob_now cfg kc gh jbs pj m' now hops now')
    (partitionPending (pjs0.filter fun q => q.spec.agent = jenkinsAgent)).1
    [] hpend
  have hnonpeq := runPhase_now (syncNonPendingJob cfg kc jc now jbs)
    (syncNonPendingJob cfg kc jc now' jbs)
    (fun pj m' hops =>
      syncNonPendingJob_now cfg kc jc jbs pj m' now hops now')
    (partitionPending (pjs0.filter fun q => q.spec.agent = jenkinsAgent)).2
    (runPhase (syncPendingJob cfg kc gh now jbs) []
      (partitionPending
        (pjs0.filter fun q => q.spec.agent = jenkinsAgent)).1).pendingJobs
    hnonp
  have heq : syncTick cfg kc jc gh now' pjs0 jbs =
      syncTick cfg kc jc gh now pjs0 jbs := by
    apply TickResult.ext'
    · rw [syncTick_pendingJobs cfg kc jc gh now' pjs0 jbs,
        syncTick_pendingJobs cfg kc jc gh now pjs0 jbs, hrecn', hrecn,
        hpendeq, hnonpeq]
    · rw [hrecn', hrecn]
    · rw [syncTick_reports cfg kc jc gh now' pjs0 jbs,
        syncTick_reports cfg kc jc gh now pjs0 jbs, hrecn', hrecn,
        hpendeq, hnonpeq]
    · rw [syncTick_ops cfg kc jc gh now' pjs0 jbs,
        syncTick_ops cfg kc jc gh now pjs0 jbs, hddeq now', hddeq now,
        hrecn', hrecn, hpendeq, hnonpeq]
    · rw [syncTick_errs cfg kc jc gh now' pjs0 jbs,
        syncTick_errs cfg kc jc gh now pjs0 jbs, hddeq now', hddeq now,
        hrecn', hrecn, hpendeq, hnonpeq]
    · rw [syncTick_finals cfg kc jc gh now' pjs0 jbs,
        syncTick_finals cfg kc jc gh now pjs0 jbs, hrecn', hrecn,
        hpendeq, hnonpeq]
  exact ⟨heq, by rw [heq]; exact h0⟩

/-- Witness for `sync_quiescence`: over a store holding only a complete
record, a tick is silent, and the next tick computes the same silent
result. -/
theorem sync_quiescence_witness :
    syncTick cfgPlain kcOK jcOK ghOK 60 [pjDone] [] =
      syncTick cfgPlain kcOK jcOK ghOK 50 [pjDone] [] ∧
    (syncTick cfgPlain kcOK jcOK ghOK 60 [pjDone] []).ops = [] :=
  sync_quiescence cfgPlain kcOK jcOK ghOK 50 60 [pjDone] [] rfl

/-- C9 (counterexample): a triggered record with an existing running build.
The first tick only Replaces it to pending ("enqueued") — no submit or
abort, so the build backend is unchanged — yet the second tick, run over the
first tick's resulting store and the unchanged build map, performs another
store Replace (the running-description refresh), refuting "no store Replace
... calls" for the second tick. -/
theorem sync_quiescence_cex :
    (syncTick cfgPlain kcOK jcOK ghOK 50 [pjT] jbsT).errs = [] ∧
    (syncTick cfgPlain kcOK jcOK ghOK 50 [pjT] jbsT).ops.map opKind =
      ["replace"] ∧
    (syncTick cfgPlain kcOK jcOK ghOK 60
      (syncTick cfgPlain kcOK jcOK ghOK 50 [pjT] jbsT).finals jbsT).ops.map
        opKind = ["replace"] := ⟨rfl, rfl, rfl⟩
